import Mathlib

/-!
Verification of the sparse address-space data model, checksum engine and
format codecs of the `srecord` package.  Every definition in this file is a
shallow embedding of the corresponding Python function from the package
sources (`srecord/core.py`, `srecord/checksum.py`, `srecord/input.py`,
`srecord/output.py`, `srecord/generator.py`); bytes are modelled as natural
numbers below 256, byte buffers as `List Nat`, and raised exceptions as
explicit result constructors.
-/

deriving instance DecidableEq for Except

namespace Srecord

/-! ## Core data model (`srecord/core.py`) -/

/-- `DataChunk(base_address, data)`: one contiguous block of binary data at a
base address (`core.py`, class `DataChunk`). -/
structure DataChunk where
  base : Nat
  data : List Nat
deriving Repr, DecidableEq

/-- `DataChunk.start()`: the base address. -/
def DataChunk.start (c : DataChunk) : Nat := c.base

/-- `DataChunk.end()`: one past the last byte (`base + len(self)`).  Named
`end'` because `end` is a Lean keyword. -/
def DataChunk.end' (c : DataChunk) : Nat := c.base + c.data.length

/-- Intermediate outcome of the scan loop of `SparseData._addone`: either the
final `(lbound, ubound, chunk)` triple, or a `CollisionError`. -/
inductive LoopResult where
  | ok (lb ub : Nat) (chunk : DataChunk)
  | collisionError
deriving Repr, DecidableEq

/-- The `for (idx, d) in enumerate(self._data)` loop of `SparseData._addone`
(`core.py` lines 124-163), translated branch by branch.  `idx` is the current
index, `lb`/`ub` the running `lbound`/`ubound`, `chunk` the chunk being
inserted (which the loop may widen by merging).  Python's negative-index slice
`d[chunk.end()-d.end():]` takes the last `d.end()-chunk.end()` bytes of `d`,
which is `List.drop` of the complement; `d[0:k]` with `k > 0` is `List.take k`.
-/
def addoneLoop (ce : Bool) : List DataChunk → Nat → Nat → Nat → DataChunk → LoopResult
  | [], _, lb, ub, chunk => .ok lb ub chunk
  | d :: rest, idx, lb, ub, chunk =>
    if d.end' < chunk.start then
      -- "This chunk will go below us."
      addoneLoop ce rest (idx + 1) (idx + 1) ub chunk
    else if d.end' = chunk.start then
      -- "Merge with this lower chunk"
      addoneLoop ce rest (idx + 1) idx ub ⟨d.base, d.data ++ chunk.data⟩
    else if chunk.end' < d.start then
      -- "This chunk will go above us."  (break)
      .ok lb idx chunk
    else if d.start = chunk.end' then
      -- "Merge with this higher chunk"  (break)
      .ok lb (idx + 1) ⟨chunk.base, chunk.data ++ d.data⟩
    else if ce then
      .collisionError
    else
      -- overlap, new data wins on the overlapped span
      let c1 : DataChunk :=
        if d.start < chunk.start then
          ⟨d.base, d.data.take (chunk.start - d.start) ++ chunk.data⟩
        else chunk
      let lb1 : Nat := if d.start < chunk.start then idx else lb
      let c2 : DataChunk :=
        if c1.end' < d.end' then
          ⟨c1.base, c1.data ++ d.data.drop (d.data.length - (d.end' - c1.end'))⟩
        else c1
      let ub1 : Nat := if c1.end' < d.end' then idx else ub
      addoneLoop ce rest (idx + 1) lb1 ub1 c2

/-- Python slice assignment `lst[lb:ub] = [c]`: for `ub < lb` the assignment
inserts at `lb` (the slice is empty), hence the `max`. -/
def spliceReplace (l : List DataChunk) (lb ub : Nat) (c : DataChunk) : List DataChunk :=
  l.take lb ++ [c] ++ l.drop (max lb ub)

/-- `SparseData`: sorted collection of `DataChunk`s together with its
per-instance `collision_error` flag (`core.py`, class `SparseData`). -/
structure SparseData where
  collision_error : Bool
  _data : List DataChunk
deriving Repr, DecidableEq

/-- Result of a mutating operation that can raise `CollisionError`. -/
inductive AddResult where
  | ok (sd : SparseData)
  | collisionError
deriving Repr, DecidableEq

/-- `SparseData._addone(chunk)` (`core.py` lines 106-164): skip empty chunks,
run the scan loop starting from `lbound = 0`, `ubound = len(self._data)`, and
apply the final slice assignment `self._data[lbound:ubound] = [chunk]`. -/
def SparseData.addone (sd : SparseData) (chunk : DataChunk) : AddResult :=
  if chunk.data.length = 0 then .ok sd
  else
    match addoneLoop sd.collision_error sd._data 0 0 sd._data.length chunk with
    | .collisionError => .collisionError
    | .ok lb ub c => .ok ⟨sd.collision_error, spliceReplace sd._data lb ub c⟩

/-- `SparseData.add(*args)` restricted to direct `DataChunk` arguments:
`_addone` applied to each argument in order. -/
def SparseData.add (sd : SparseData) : List DataChunk → AddResult
  | [] => .ok sd
  | c :: cs =>
    match sd.addone c with
    | .collisionError => .collisionError
    | .ok sd' => sd'.add cs

/-- `SparseData.start()`: first chunk's start, `None` when empty. -/
def SparseData.start? (sd : SparseData) : Option Nat :=
  match sd._data with
  | [] => none
  | c :: _ => some c.start

/-- `SparseData.end()`: last chunk's end, `None` when empty. -/
def SparseData.end? (sd : SparseData) : Option Nat :=
  match sd._data.getLast? with
  | none => none
  | some c => some c.end'

/-! ## Invariant predicates for the region list -/

/-- All (ordered) pairs of distinct list entries satisfy `r`. -/
def pairwiseB (r : DataChunk → DataChunk → Bool) : List DataChunk → Bool
  | [] => true
  | c :: rest => rest.all (r c) && pairwiseB r rest

/-- The region list is sorted ascending by start address. -/
def sortedByStart (l : List DataChunk) : Bool :=
  pairwiseB (fun c d => c.start ≤ d.start) l

/-- No two regions overlap (share any address). -/
def noOverlap (l : List DataChunk) : Bool :=
  pairwiseB (fun c d => c.end' ≤ d.start || d.end' ≤ c.start) l

/-- No two regions are byte-adjacent (one's end equal to the other's start). -/
def noAdjacent (l : List DataChunk) : Bool :=
  pairwiseB (fun c d => decide (c.end' ≠ d.start) && decide (d.end' ≠ c.start)) l

/-- All regions in the list are non-empty (guaranteed for lists built through
`add`, which silently drops empty chunks). -/
def allNonempty (l : List DataChunk) : Bool :=
  l.all (fun c => 0 < c.data.length)

/-- The `SparseData` region-list invariant, in the consecutive form implied by
sortedness: every region non-empty and each region's end strictly below the
next region's start. -/
def chunksInv : List DataChunk → Bool
  | [] => true
  | [c] => 0 < c.data.length
  | c :: d :: rest => (0 < c.data.length && c.end' < d.start) && chunksInv (d :: rest)

/-! ## Checksum engine (`srecord/checksum.py`) -/

/-- Endianness selector (`settings.BE` / `settings.LE`). -/
inductive Endian where
  | BE
  | LE
deriving Repr, DecidableEq

/-- The settings consumed by the checksum engine (module defaults:
little-endian, both strictness flags on). -/
structure CkSettings where
  endian : Endian
  force_contiguous_checksum : Bool
  force_integer_wordcount : Bool
deriving Repr, DecidableEq

/-- `struct.unpack` of one word of `bs.length` bytes: big-endian reads the
byte list most-significant first, little-endian least-significant first. -/
def wordOfBytes (e : Endian) (bs : List Nat) : Nat :=
  match e with
  | .BE => bs.foldl (fun acc b => acc * 256 + b) 0
  | .LE => bs.reverse.foldl (fun acc b => acc * 256 + b) 0

/-- `struct.unpack` of `q = len // w` words of `w` bytes each: the word at
index `i` is read from bytes `i*w .. i*w+w`; any final fragment of fewer than
`w` bytes is not part of the unpacked range. -/
def chunkWords (e : Endian) (w : Nat) (bs : List Nat) : List Nat :=
  (List.range (bs.length / w)).map (fun i => wordOfBytes e ((bs.drop (i * w)).take w))

/-- The `chunk_maker` generator of the `_checksum` decorator (`checksum.py`
lines 121-128): for each chunk compute `(q, r) = divmod(len, wordsize)`; with
`force_integer_wordcount` a nonzero remainder raises
`NonIntegerWordCountError` (modelled as `none`), otherwise the first
`len - r` bytes are unpacked into `q` words. -/
def chunkMaker (e : Endian) (w : Nat) (iwc : Bool) : List DataChunk → Option (List Nat)
  | [] => some []
  | c :: rest =>
    let r := c.data.length % w
    if r ≠ 0 ∧ iwc = true then none
    else
      match chunkMaker e w iwc rest with
      | none => none
      | some ws => some (chunkWords e w (c.data.take (c.data.length - r)) ++ ws)

/-- Result of a checksum call: `None` for an empty `SparseData`, an integer
value, or one of the two exceptions. -/
inductive CkResult where
  | none
  | value (v : Nat)
  | nonContiguous
  | nonIntegerWordCount
deriving Repr, DecidableEq

/-- The `_checksum(wordsize)` decorator engine (`checksum.py` lines 111-130):
empty data returns `None`; more than one region with
`force_contiguous_checksum` raises `NonContiguousError`; otherwise the chunks
are decomposed into words and fed to the accumulation function `fn`. -/
def _checksum (w : Nat) (fn : List Nat → Nat) (st : CkSettings) (sd : SparseData) : CkResult :=
  if sd._data.length = 0 then .none
  else if 1 < sd._data.length ∧ st.force_contiguous_checksum = true then .nonContiguous
  else
    match chunkMaker st.endian w st.force_integer_wordcount sd._data with
    | none => .nonIntegerWordCount
    | some ws => .value (fn ws)

/-- `sum8`: 8-bit sum of all the bytes (`sum(data) & 0xFF`). -/
def sum8 (st : CkSettings) (sd : SparseData) : CkResult :=
  _checksum 1 (fun ws => ws.sum % 256) st sd

/-- `sum16`: 16-bit sum of all the 16-bit words (`sum(data) & 0xFFFF`). -/
def sum16 (st : CkSettings) (sd : SparseData) : CkResult :=
  _checksum 2 (fun ws => ws.sum % 65536) st sd

/-- `sum32`: 32-bit sum of all the 32-bit words (`sum(data) & 0xFFFFFFFF`). -/
def sum32 (st : CkSettings) (sd : SparseData) : CkResult :=
  _checksum 4 (fun ws => ws.sum % 4294967296) st sd

/-- One carry fold of the Fletcher sums: `(x & 0xFFFF) + (x >> 16)`. -/
def fold16 (x : Nat) : Nat := x % 65536 + x / 65536

/-- The `for ic in iterate_count(data, 360)` loop of `fletcher32`, with the
360-word grouping expressed by the counter `k` (number of words consumed in
the current group): each word does `sum1 += d; sum2 += sum1`; when a group of
360 words completes both sums are folded back from their carries; reaching the
end of the data inside a partial group folds once for that group (matching the
fold that follows the `for d in ic` body), while ending exactly on a group
boundary does not fold again. -/
def fletcherRun : List Nat → Nat → Nat → Nat → Nat × Nat
  | [], k, s1, s2 => if k = 0 then (s1, s2) else (fold16 s1, fold16 s2)
  | d :: rest, k, s1, s2 =>
    if k + 1 = 360 then fletcherRun rest 0 (fold16 (s1 + d)) (fold16 (s2 + s1 + d))
    else fletcherRun rest (k + 1) (s1 + d) (s2 + s1 + d)

/-- The accumulation rule of `fletcher32` (`checksum.py` lines 163-176):
both sums start at `0xFFFF`, are folded every 360 words and once more at the
end, and combine as `(sum2 << 16) + sum1`. -/
def fletcherAccum (ws : List Nat) : Nat :=
  let p := fletcherRun ws 0 0xFFFF 0xFFFF
  fold16 p.2 * 65536 + fold16 p.1

/-- `fletcher32`: 32-bit Fletcher's checksum over 16-bit words. -/
def fletcher32 (st : CkSettings) (sd : SparseData) : CkResult :=
  _checksum 2 fletcherAccum st sd

/-- `struct.pack('<H')` of each word: the little-endian byte encoding of a
16-bit word sequence. -/
def encode16LE (ws : List Nat) : List Nat :=
  (ws.map (fun w => [w % 256, w / 256])).flatten

/-! ### C10: silent truncation of partial words -/

/-- A chunk truncated to the largest multiple of `w` bytes. -/
def truncChunk (w : Nat) (c : DataChunk) : DataChunk :=
  ⟨c.base, c.data.take (c.data.length - c.data.length % w)⟩

/-- A `SparseData` with every region truncated to whole `w`-byte words. -/
def truncSD (w : Nat) (sd : SparseData) : SparseData :=
  ⟨sd.collision_error, sd._data.map (truncChunk w)⟩

/-! ## Hex text helpers shared by the codecs -/

/-- An uppercase hexadecimal digit (the character class `[0-9A-F]` used by the
S-record regular expression on the uppercased line). -/
def isHexUp (c : Char) : Bool := ('0' ≤ c && c ≤ '9') || ('A' ≤ c && c ≤ 'F')

/-- Value of one uppercase hex digit (`int(c, 16)`); meaningful on
`isHexUp` characters. -/
def hexVal (c : Char) : Nat :=
  if c ≤ '9' then c.toNat - 48 else c.toNat - 55

/-- The uppercase hex digit for a value below 16 (`'{:X}'.format`). -/
def hexDigit (n : Nat) : Char :=
  if n < 10 then Char.ofNat (48 + n) else Char.ofNat (55 + n)

/-- Hex digit string of `n`, most significant digit first, with explicit fuel
(always called with fuel `n + 1`, which suffices since the value shrinks by a
factor of 16 each step). -/
def hexDigitsAux : Nat → Nat → List Char
  | 0, _ => []
  | fuel + 1, n =>
    if n < 16 then [hexDigit n] else hexDigitsAux fuel (n / 16) ++ [hexDigit (n % 16)]

/-- Hex digit string of `n` (`'{:X}'.format(n)`). -/
def hexDigits (n : Nat) : List Char := hexDigitsAux (n + 1) n

/-- `'{:02X}'.format(n)`: the hex digits of `n` left-padded with `'0'` to at
least two characters. -/
def fmt02X (n : Nat) : List Char :=
  let ds := hexDigits n
  if ds.length < 2 then List.replicate (2 - ds.length) '0' ++ ds else ds

/-- `int(s, 16)` over a digit string. -/
def hexListVal (cs : List Char) : Nat :=
  cs.foldl (fun a c => a * 16 + hexVal c) 0

/-- `bytearray(int(s[i:i+2], 16) for i in range(0, len(s), 2))`: decode hex
characters two at a time; a trailing odd character decodes as a single
digit. -/
def hexPairs : List Char → List Nat
  | [] => []
  | [c] => [hexVal c]
  | c1 :: c2 :: rest => (hexVal c1 * 16 + hexVal c2) :: hexPairs rest

/-- `line.upper()` on one character. -/
def pyUpper (c : Char) : Char :=
  if 97 ≤ c.toNat ∧ c.toNat ≤ 122 then Char.ofNat (c.toNat - 32) else c

/-- Python `str.isspace` characters relevant to `strip()`. -/
def isPySpace (c : Char) : Bool :=
  c = ' ' || c = '\t' || c = '\n' || c = '\r' || c = Char.ofNat 11 || c = Char.ofNat 12

/-- `line.strip()`. -/
def pyStrip (cs : List Char) : List Char :=
  ((cs.dropWhile isPySpace).reverse.dropWhile isPySpace).reverse

/-- `(~x) & 0xFF` for a nonnegative integer `x`: the one's complement of the
low byte. -/
def complement8 (x : Nat) : Nat := 255 - x % 256

/-- `_read_big_endian(data)` (`input.py` lines 26-31). -/
def _read_big_endian (bs : List Nat) : Nat :=
  bs.foldl (fun total d => total * 256 + d) 0

/-! ## S-record reader (`srecord/input.py`, class `SrecInput`) -/

/-- The four groups of the record regular expression
`S([0-357-9])([0-9A-F]{2})([0-9A-F]+)([0-9A-F]{2})$`: record type, byte-count
field value, decoded block data, checksum byte. -/
structure SrecRecord where
  S : Nat
  bytecountField : Nat
  blockdata : List Nat
  checksum : Nat
deriving Repr, DecidableEq

/-- Match a stripped, uppercased line against the record regular expression
and decode the groups (`input.py` lines 117-130): the byte-count group is the
first two hex characters after the type, the checksum group the last two, and
the (nonempty) remainder in between is the block data. -/
def parseSrecLine (cs : List Char) : Option SrecRecord :=
  match cs with
  | 'S' :: t :: rest =>
    if (t ∈ ['0', '1', '2', '3', '5', '7', '8', '9']) ∧ rest.all isHexUp = true ∧
        5 ≤ rest.length then
      some ⟨t.toNat - 48, hexListVal (rest.take 2),
        hexPairs ((rest.drop 2).take (rest.length - 4)),
        hexListVal (rest.drop (rest.length - 2))⟩
    else none
  | _ => none

/-- The validation flags of `SrecInput.__init__`. -/
structure SrecFlags where
  force_good_checksum : Bool
  force_good_bytecount : Bool
  force_valid_recordcount : Bool
  force_all_records : Bool
deriving Repr, DecidableEq

/-- The default flag values of `SrecInput.__init__`. -/
def defaultSrecFlags : SrecFlags := ⟨true, true, true, false⟩

/-- The mutable state of one `SrecInput.read` call: the `SparseData` under
construction (its `collision_error` is the process-wide default `True`), the
collected header payloads, the start address, and the data-record count. -/
structure SrecState where
  _data : List DataChunk
  _header : List (List Nat)
  _startAddress : Option Nat
  record_count : Nat
deriving Repr, DecidableEq

/-- Exceptions escaping `SrecInput.read`. -/
inductive ReadError where
  | invalidRecordNotSrec (ln : Nat)
  | invalidRecordBadBytecount (ln : Nat)
  | invalidRecordChecksum (computed given ln : Nat)
  | invalidRecordBadCount (ln : Nat)
  | collisionError
deriving Repr, DecidableEq

/-- Record validation (`input.py` lines 132-142): the byte-count check
compares the decoded length against `int(field, 16) - 1` (a Python integer,
hence the `Int` comparison), and the checksum check recomputes
`(~sum(blockdata, bytecount + 1)) & 0xFF` — the one's complement of the low
byte of the byte-count field plus the sum of all decoded bytes — and on
mismatch raises `InvalidRecord` carrying both values and the line number. -/
def validateRecord (fl : SrecFlags) (ln : Nat) (rec : SrecRecord) : Option ReadError :=
  if fl.force_good_bytecount = true ∧
      (rec.blockdata.length : Int) ≠ (rec.bytecountField : Int) - 1 then
    some (.invalidRecordBadBytecount ln)
  else if fl.force_good_checksum = true ∧
      rec.checksum ≠ complement8 (rec.bytecountField + rec.blockdata.sum) then
    some (.invalidRecordChecksum (complement8 (rec.bytecountField + rec.blockdata.sum))
      rec.checksum ln)
  else none

/-- Dispatch on a validated record (`input.py` lines 144-168). -/
def processRecord (fl : SrecFlags) (st : SrecState) (ln : Nat) (rec : SrecRecord) :
    Except ReadError SrecState :=
  match validateRecord fl ln rec with
  | some e => .error e
  | none =>
    if rec.S = 0 then
      .ok ⟨st._data, st._header ++ [rec.blockdata.drop 2], st._startAddress, st.record_count⟩
    else if rec.S = 1 ∨ rec.S = 2 ∨ rec.S = 3 then
      let address_bytes := rec.S + 1
      let address := _read_big_endian (rec.blockdata.take address_bytes)
      match SparseData.addone ⟨true, st._data⟩ ⟨address, rec.blockdata.drop address_bytes⟩ with
      | .collisionError => .error .collisionError
      | .ok sd => .ok ⟨sd._data, st._header, st._startAddress, st.record_count + 1⟩
    else if rec.S = 5 then
      if fl.force_valid_recordcount = true ∧
          _read_big_endian rec.blockdata ≠ st.record_count then
        .error (.invalidRecordBadCount ln)
      else .ok st
    else
      .ok ⟨st._data, st._header, some (_read_big_endian rec.blockdata), st.record_count⟩

/-- One iteration of the `for (ln, line) in enumerate(f)` loop: uppercase and
strip the raw line, try the record pattern (a non-match is skipped unless
`force_all_records`), then validate and dispatch. -/
def processLine (fl : SrecFlags) (st : SrecState) (ln : Nat) (line : List Char) :
    Except ReadError SrecState :=
  match parseSrecLine (pyStrip (line.map pyUpper)) with
  | none =>
    if fl.force_all_records = true then .error (.invalidRecordNotSrec ln) else .ok st
  | some rec => processRecord fl st ln rec

/-- The reader loop over the file's lines, threading the state and the line
number. -/
def readLines (fl : SrecFlags) : SrecState → Nat → List (List Char) →
    Except ReadError SrecState
  | st, _, [] => .ok st
  | st, ln, l :: rest =>
    match processLine fl st ln l with
    | .error e => .error e
    | .ok st' => readLines fl st' (ln + 1) rest

/-! ## S-record writer (`srecord/output.py`, class `SrecOutput`) -/

/-- Exceptions escaping the writers. -/
inductive WriteError where
  | valueError
  | typeError
  | nonContiguousError
  | indexError
deriving Repr, DecidableEq

namespace SrecOutput

/-- The automatic address-width selection of `SrecOutput.__init__`
(`output.py` lines 83-89): the width is chosen from `sdata.end()` — with an
empty `SparseData` the comparison `None <= 0xFFFF` raises `TypeError`. -/
def autoAddressBytes (sd : SparseData) : Except WriteError Nat :=
  match sd.end? with
  | none => .error .typeError
  | some e => .ok (if e ≤ 0xFFFF then 2 else if e ≤ 0xFFFFFF then 3 else 4)

/-- `SrecOutput._make_bigendian(x)`: `address_bytes` bytes of `x`, big-endian.
(The Python while-loop fills the array from its least significant end; for
`x < 256 ** address_bytes` — the only values the validated writer feeds it —
that is exactly the padded big-endian encoding below.) -/
def _make_bigendian (ab x : Nat) : List Nat :=
  (List.range ab).map (fun i => x / 256 ^ (ab - 1 - i) % 256)

/-- `SrecOutput._make_srec(data)` (`output.py` lines 137-145): hex-format the
byte-count field `len(data) + 1`, the bytes, and the freshly computed
checksum `~sum(d, data_len) & 0xFF`. -/
def _make_srec (d : List Nat) : List Char :=
  fmt02X (d.length + 1) ++ (d.map fmt02X).flatten ++ fmt02X (complement8 (d.length + 1 + d.sum))

/-- The per-chunk data-record loop of `SrecOutput.write` (`output.py` lines
165-170): split the chunk bytes into groups of at most `bytes_per_line`,
each group becoming one record whose address advances by the group length.
`fuel` bounds the iteration count (the caller passes the chunk length, which
suffices for any positive `bytes_per_line`; `iterate_count` with a zero `n`
produces no groups at all). -/
def chunkDataLines (stype : Char) (ab bpl : Nat) : Nat → Nat → List Nat → List (List Char)
  | 0, _, _ => []
  | fuel + 1, addr, data =>
    if data = [] ∨ bpl = 0 then []
    else
      ('S' :: stype :: _make_srec (_make_bigendian ab addr ++ data.take bpl)) ::
        chunkDataLines stype ab bpl fuel (addr + (data.take bpl).length) (data.drop bpl)

/-- `SrecOutput.write` (`output.py` lines 147-176), producing the list of
output lines (without their trailing newlines): validate the address width
and that `sdata.end()` fits it (`TypeError` on an empty `SparseData`), then
emit the `S0` header record (if a truthy header is set), one data record per
line-chunk, and the `S7`-`S9` start-address record (if set). -/
def write (ab : Nat) (header : Option (List Nat)) (start_address : Option Nat)
    (bpl : Nat) (sd : SparseData) : Except WriteError (List (List Char)) :=
  if ¬(ab = 2 ∨ ab = 3 ∨ ab = 4) then .error .valueError
  else
    match sd.end? with
    | none => .error .typeError
    | some e =>
      if 256 ^ ab < e then .error .valueError
      else
        let headerLines : List (List Char) :=
          match header with
          | none => []
          | some h =>
            if h = [] then []
            else ['S' :: '0' :: _make_srec ([0x30, 0x30, 0x30, 0x30] ++ h)]
        let stype : Char := Char.ofNat (48 + (ab - 1))
        let dataLines : List (List Char) :=
          (sd._data.map (fun c => chunkDataLines stype ab bpl c.data.length c.start c.data)).flatten
        let startLines : List (List Char) :=
          match start_address with
          | none => []
          | some sa =>
            ['S' :: Char.ofNat (48 + (9 + 2 - ab)) :: _make_srec (_make_bigendian ab sa)]
        .ok (headerLines ++ dataLines ++ startLines)

end SrecOutput

/-! ## The region-list invariant and the behaviour of `_addone` on
non-overlapping insertions

`SInv l` is the propositional form of the `SparseData` invariant: every region
non-empty and strictly below every later region.  `insertMerge` is the exact
region list produced by a successful `_addone` of a chunk that overlaps no
existing region (it may be adjacent to one on either side); the lemmas below
prove that `_addone` computes it, that it preserves the invariant, and that
its coverage is the old coverage plus the new chunk's range. -/

/-- The region-list invariant: every chunk non-empty, and strictly below
(with a gap) every later chunk.  Under sortedness this is equivalent to the
consecutive-chain form. -/
def SInv : List DataChunk → Prop
  | [] => True
  | c :: rest => 0 < c.data.length ∧ (∀ d ∈ rest, c.end' < d.start) ∧ SInv rest

instance SInv.dec : (l : List DataChunk) → Decidable (SInv l)
  | [] => .isTrue trivial
  | c :: rest =>
    have : Decidable (SInv rest) := SInv.dec rest
    inferInstanceAs (Decidable (_ ∧ _ ∧ _))

/-- Address `a` is covered by some region of the list. -/
def coveredBy (l : List DataChunk) (a : Nat) : Prop :=
  ∃ d ∈ l, d.start ≤ a ∧ a < d.end'

instance coveredBy.dec (l : List DataChunk) (a : Nat) : Decidable (coveredBy l a) := by
  unfold coveredBy; infer_instance

/-- The upper half of the merged insertion: combine with the first region
above when it is byte-adjacent. -/
def mergeHigh (pre : List DataChunk) (c : DataChunk) (hi : List DataChunk) :
    List DataChunk :=
  match hi with
  | [] => pre ++ [c]
  | dh :: t =>
    if dh.start = c.end' then pre ++ (⟨c.base, c.data ++ dh.data⟩ :: t)
    else pre ++ (c :: dh :: t)

/-- The exact region list produced by `_addone` when the incoming chunk
overlaps nothing: regions fully below the chunk stay, the chunk absorbs a
byte-adjacent lower neighbour and/or a byte-adjacent upper neighbour, and the
regions above stay. -/
def insertMerge (l : List DataChunk) (c : DataChunk) : List DataChunk :=
  let lo := l.takeWhile (fun d => decide (d.end' ≤ c.start))
  let hi := l.dropWhile (fun d => decide (d.end' ≤ c.start))
  match lo.getLast? with
  | some dl =>
    if dl.end' = c.start then mergeHigh lo.dropLast ⟨dl.base, dl.data ++ c.data⟩ hi
    else mergeHigh lo c hi
  | none => mergeHigh lo c hi

/-! ## The fill generator (`srecord/generator.py`) -/

/-- The three source kinds of `fill` exercised by the claims: a byte pattern
(Python `bytes`, cycled per gap; a `str` source behaves the same on its
encoded bytes), an integer constant, and a byte iterator (modelled as the
stream of bytes it yields, consumed lazily across gaps). -/
inductive FillSource where
  | bytesPat (pat : List Nat)
  | intConst (v : Nat)
  | iter (f : Nat → Nat)

/-- `itertools.islice(itertools.cycle(pat), n)`: the first `n` bytes of the
endless repetition of `pat` (none when `pat` is empty). -/
def cycleTake (pat : List Nat) (n : Nat) : List Nat :=
  if pat = [] then []
  else (List.range n).map (fun i => pat.getD (i % pat.length) 0)

/-- `struct.pack` of one 16-bit word. -/
def pack2 (e : Endian) (v : Nat) : List Nat :=
  match e with
  | .LE => [v % 256, v / 256 % 256]
  | .BE => [v / 256 % 256, v % 256]

/-- `struct.pack` of one 32-bit word. -/
def pack4 (e : Endian) (v : Nat) : List Nat :=
  match e with
  | .LE => [v % 256, v / 256 % 256, v / 65536 % 256, v / 16777216 % 256]
  | .BE => [v / 16777216 % 256, v / 65536 % 256, v / 256 % 256, v % 256]

/-- The `block(addr, length)` closures of `fill` (`generator.py` lines
131-159), one per source kind; `pos` is the number of bytes already consumed
from an iterator source (the closure's hidden iterator state).  An integer
source of more than one byte emits `length // wordbytes` whole words. -/
def blockOf (e : Endian) : FillSource → Nat → Nat → Nat → DataChunk
  | .bytesPat pat, _, addr, len => ⟨addr, cycleTake pat len⟩
  | .intConst v, _, addr, len =>
    if v ≤ 0xFF then ⟨addr, List.replicate len v⟩
    else if v ≤ 0xFFFF then ⟨addr, (List.replicate (len / 2) (pack2 e v)).flatten⟩
    else ⟨addr, (List.replicate (len / 4) (pack4 e v)).flatten⟩
  | .iter f, pos, addr, len => ⟨addr, (List.range len).map (fun i => f (pos + i))⟩

/-- The gap scan of `fill` (`generator.py` lines 163-171): the first region
whose start is at or above `start` bounds the gap (`blockend`) and supplies
the next scan position (`nextstart`); if there is none the gap runs to `end`
and the loop stops after filling it. -/
def findGap (l : List DataChunk) (start end_ : Nat) : Option (Nat × Nat) :=
  match l.find? (fun d => decide (start ≤ d.start)) with
  | some d => some (min d.start end_, d.end')
  | none => none

/-- Outcome of `fill`: the new `SparseData`, a propagated `CollisionError`,
or exhaustion of the loop fuel (which cannot happen for the fuel `fill`
passes when the data satisfies the region invariant, as proved below). -/
inductive FillResult where
  | ok (sd : SparseData)
  | collisionError
  | fuelOut
deriving Repr, DecidableEq

/-- The `while start < end` loop of `fill` (`generator.py` lines 162-176):
find the gap at `start`, build the block for it, add it (merging with the
neighbours), and continue at the found region's end.  `fuel` bounds the
number of iterations. -/
def fillLoop (block : Nat → Nat → Nat → DataChunk) :
    Nat → Nat → SparseData → Nat → Nat → FillResult
  | 0, _, _, _, _ => .fuelOut
  | fuel + 1, pos, sd, start, end_ =>
    if start < end_ then
      match findGap sd._data start end_ with
      | some (blockend, nextstart) =>
        match sd.addone (block pos start (blockend - start)) with
        | .collisionError => .collisionError
        | .ok sd' => fillLoop block fuel (pos + (blockend - start)) sd' nextstart end_
      | none =>
        match sd.addone (block pos start (end_ - start)) with
        | .collisionError => .collisionError
        | .ok sd' => .ok sd'
    else .ok sd

/-- `fill(sdata, start, end, source)`: a copy of `sdata` with the gaps
between `start` and `end` populated from the source.  The fuel
`end - start + 1` suffices because every loop iteration either finishes or
advances `start` past a (non-empty) existing region. -/
def fill (e : Endian) (source : FillSource) (sd : SparseData)
    (start end_ : Nat) : FillResult :=
  fillLoop (blockOf e source) (end_ - start + 1) 0 sd start end_

/-- The sources whose block covers exactly the requested gap: a non-empty
byte pattern, a one-byte integer constant, or an iterator.  A multi-byte
integer constant is excluded: its block holds only `length // wordbytes`
whole words. -/
def lengthExactSource : FillSource → Prop
  | .bytesPat pat => pat ≠ []
  | .intConst v => v ≤ 0xFF
  | .iter _ => True

/-! ## Raw binary codec (`output.py` class `BinaryOutput`,
`input.py` class `BinaryInput`) -/

/-- `BinaryOutput.write`: refuse more than one region
(`NonContiguousError`); `self.sdata[0]` on an empty space raises
`IndexError`; otherwise the file content is the single region's bytes —
its base address is not recorded anywhere. -/
def BinaryOutput.write (sd : SparseData) : Except WriteError (List Nat) :=
  if 1 < sd._data.length then .error .nonContiguousError
  else
    match sd._data with
    | [] => .error .indexError
    | c :: _ => .ok c.data

/-- `BinaryInput.read`: `SparseData(DataChunk(0, f.read()))` — the whole
file as one chunk based at address 0 (the constructor's `add` drops an
empty chunk, and never collides on an empty list, so the fallback arm is
unreachable). -/
def BinaryInput.read (bs : List Nat) : SparseData :=
  match SparseData.addone ⟨true, []⟩ ⟨0, bs⟩ with
  | .ok sd => sd
  | .collisionError => ⟨true, []⟩

/-! ## Intel HEX writer (`output.py`, class `HexOutput`) -/

namespace HexOutput

/-- `-sum(record) & 0xFF`: the two's-complement checksum byte. -/
def negsum8 (x : Nat) : Nat := (256 - x % 256) % 256

/-- `HexOutput._make_record(address, type, data)` (`output.py` lines
209-213): the record bytes `[len(data), address >> 8, address & 0xFF,
type] + data` hex-encoded (uppercased) behind a `':'`, followed by the
checksum byte. -/
def _make_record (address type_ : Nat) (data : List Nat) : List Char :=
  let record := [data.length, address / 256, address % 256, type_] ++ data
  ':' :: (record.map fmt02X).flatten ++ fmt02X (negsum8 record.sum)

/-- The `while end < dc.end()` loop of `HexOutput._chunky` (`output.py`
lines 224-234): slice off up to `bytes_per_line` bytes, clipped at the
next 64 KiB boundary (`(start | 0xFFFF) + 1`), and yield the upper 16
address bits, the lower 16 address bits and the slice.  `fuel` bounds the
iteration count; the chunk length suffices for any positive
`bytes_per_line`. -/
def chunkyLoop (bpl : Nat) (dc : DataChunk) : Nat → Nat → List (Nat × Nat × List Nat)
  | 0, _ => []
  | fuel + 1, end0 =>
    if end0 < dc.end' then
      let start := end0
      let end1 := min dc.end' (start + bpl)
      let sh := start / 65536
      let end2 := if end1 / 65536 ≠ sh then (start / 65536 + 1) * 65536 else end1
      (sh, start % 65536, (dc.data.drop (start - dc.start)).take (end2 - start)) ::
        chunkyLoop bpl dc fuel end2
    else []

/-- `HexOutput._chunky(dc)`: the loop started at `offset = end =
dc.start()`. -/
def _chunky (bpl : Nat) (dc : DataChunk) : List (Nat × Nat × List Nat) :=
  chunkyLoop bpl dc dc.data.length dc.start

/-- The record-emitting loop of `HexOutput.write` (`output.py` lines
244-254) over the yielded slices, threading the `high` state: a type-4
extended-linear-address record whenever the upper 16 bits change, then the
type-0 data record. -/
def hexDataLines : Option Nat → List (Nat × Nat × List Nat) → List (List Char)
  | _, [] => []
  | high, (h, addr, data) :: rest =>
    if some h ≠ high then
      _make_record 0 4 [h / 256, h % 256] :: _make_record addr 0 data ::
        hexDataLines (some h) rest
    else
      _make_record addr 0 data :: hexDataLines (some h) rest

/-- `HexOutput.write` (`output.py` lines 236-263), producing the output
lines: refuse `sdata.end() >= 2**32` (`TypeError` on an empty space, whose
`end()` is `None`), then the data records, the optional type-5 start
address record, and the closing type-1 EOF record. -/
def write (bpl : Nat) (start_address : Option Nat) (sd : SparseData) :
    Except WriteError (List (List Char)) :=
  match sd.end? with
  | none => .error .typeError
  | some e =>
    if 2 ^ 32 ≤ e then .error .valueError
    else
      let dataLines := hexDataLines none ((sd._data.map (_chunky bpl)).flatten)
      let startLines : List (List Char) :=
        match start_address with
        | none => []
        | some sa =>
          [_make_record 0 5 [sa / 2 ^ 24 % 256, sa / 2 ^ 16 % 256, sa / 2 ^ 8 % 256, sa % 256]]
      .ok (dataLines ++ startLines ++ [_make_record 0 1 []])

end HexOutput

/-! ## Intel HEX reader (`input.py`, class `HexInput`) -/

/-- A hexadecimal digit of either case (accepted by `bytes.fromhex`). -/
def isHexAny (c : Char) : Bool := isHexUp c || ('a' ≤ c && c ≤ 'f')

/-- Value of a hex digit of either case. -/
def hexValAny (c : Char) : Nat :=
  if 'a' ≤ c ∧ c ≤ 'f' then c.toNat - 87 else hexVal c

/-- Byte pairs of a hex string of either case. -/
def hexPairsAny : List Char → List Nat
  | [] => []
  | [c] => [hexValAny c]
  | c1 :: c2 :: rest => (hexValAny c1 * 16 + hexValAny c2) :: hexPairsAny rest

/-- `bytes.fromhex(record)`: requires hex digits in an even count
(`ValueError` otherwise). -/
def fromHex? (cs : List Char) : Option (List Nat) :=
  if cs.all isHexAny ∧ cs.length % 2 = 0 then some (hexPairsAny cs) else none

/-- `str.split(sep)` for a one-character separator (used with `':'`). -/
def splitOnChar (sep : Char) : List Char → List (List Char)
  | [] => [[]]
  | c :: rest =>
    if c = sep then [] :: splitOnChar sep rest
    else
      match splitOnChar sep rest with
      | [] => [[c]]
      | g :: gs => (c :: g) :: gs

/-- The file content produced by one `print` call per line. -/
def joinLinesNl (lines : List (List Char)) : List Char :=
  (lines.map (fun l => l ++ ['\n'])).flatten

/-- The value of the writer's `high` variable after emitting the records for
a list of slices: the upper address bits of the last slice, if any. -/
def highAfter (high : Option Nat) (pieces : List (Nat × Nat × List Nat)) : Option Nat :=
  match pieces.getLast? with
  | some p => some p.1
  | none => high

namespace HexInput

/-- The validation flags of `HexInput.__init__`. -/
structure HexFlags where
  force_good_checksum : Bool
  force_good_bytecount : Bool
  eof_error : Bool
deriving Repr, DecidableEq

/-- The default flag values of `HexInput.__init__`. -/
def defaultHexFlags : HexFlags := ⟨true, true, true⟩

/-- The mutable state of one `HexInput.read` call: the `SparseData` under
construction (with the process-wide default `collision_error = True`), the
current base address, the EOF marker, and the start addresses set by
type-3/type-5 records. -/
structure HexState where
  _data : List DataChunk
  _baseaddr : Nat
  _eof : Bool
  startcs : Option Nat
  startpc : Option Nat
deriving Repr, DecidableEq

/-- Exceptions escaping `HexInput.read`. -/
inductive HexReadError where
  | invalidRecord
  | collisionError
  | keyError
  | valueError
  | indexError
deriving Repr, DecidableEq

/-- One iteration of the `for record in data.split(':')` loop (`input.py`
lines 251-275): skip empty records, refuse data past an EOF record, decode
the hex (`ValueError` on bad digits or an odd count; field access raises
`IndexError` below 4 bytes; note `data = b[4:-1]` and `cksm = b[-1]`, so a
4-byte record reuses its type byte as its checksum), validate, and
dispatch on the record type through the `recparse` table (`KeyError` for
an unknown type).  The record bytes are below 256, so the `|` of the
shifted address bytes in the handlers is addition. -/
def processHexRecord (fl : HexFlags) (st : HexState) (cs : List Char) :
    Except HexReadError HexState :=
  if cs = [] then .ok st
  else if fl.eof_error = true ∧ st._eof = true then .error .invalidRecord
  else
    match fromHex? cs with
    | none => .error .valueError
    | some b =>
      if b.length < 4 then .error .indexError
      else
        let dlen := b.getD 0 0
        let addr := b.getD 1 0 * 256 + b.getD 2 0
        let type_ := b.getD 3 0
        let data := (b.drop 4).dropLast
        if fl.force_good_checksum = true ∧ b.sum % 256 ≠ 0 then .error .invalidRecord
        else if fl.force_good_bytecount = true ∧ data.length ≠ dlen then
          .error .invalidRecord
        else if type_ = 0 then
          match SparseData.addone ⟨true, st._data⟩ ⟨st._baseaddr + addr, data⟩ with
          | .collisionError => .error .collisionError
          | .ok sd => .ok ⟨sd._data, st._baseaddr, st._eof, st.startcs, st.startpc⟩
        else if type_ = 1 then .ok ⟨st._data, st._baseaddr, true, st.startcs, st.startpc⟩
        else if type_ = 2 then
          if dlen ≠ 2 then .error .invalidRecord
          else .ok ⟨st._data, data.getD 0 0 * 4096 + data.getD 1 0 * 16, st._eof,
            st.startcs, st.startpc⟩
        else if type_ = 3 then
          if dlen ≠ 4 then .error .invalidRecord
          else .ok ⟨st._data, st._baseaddr, st._eof,
            some (data.getD 0 0 * 256 + data.getD 1 0),
            some (data.getD 2 0 * 256 + data.getD 3 0)⟩
        else if type_ = 4 then
          if dlen ≠ 2 then .error .invalidRecord
          else .ok ⟨st._data, data.getD 0 0 * 16777216 + data.getD 1 0 * 65536, st._eof,
            st.startcs, st.startpc⟩
        else if type_ = 5 then
          if dlen ≠ 4 then .error .invalidRecord
          else .ok ⟨st._data, st._baseaddr, st._eof, st.startcs,
            some (data.getD 0 0 * 16777216 + data.getD 1 0 * 65536 +
              data.getD 2 0 * 256 + data.getD 3 0)⟩
        else .error .keyError

/-- The loop over the split records, threading the state. -/
def readHexRecords (fl : HexFlags) : HexState → List (List Char) →
    Except HexReadError HexState
  | st, [] => .ok st
  | st, r :: rest =>
    match processHexRecord fl st r with
    | .error e => .error e
    | .ok st' => readHexRecords fl st' rest

/-- `HexInput.read` (`input.py` lines 231-277) over the file content:
strip all whitespace (`re.sub(r'\s', '', ...)`), split on `':'`, and
process each record from a fresh state. -/
def read (fl : HexFlags) (text : List Char) : Except HexReadError HexState :=
  readHexRecords fl ⟨[], 0, false, none, none⟩
    (splitOnChar ':' (text.filter (fun c => !(isPySpace c))))

end HexInput

/-! ## Theorems -/

theorem SInv_append_left {xs ys : List DataChunk} (h : SInv (xs ++ ys)) : SInv xs := by
  induction xs with
  | nil => trivial
  | cons x xs ih =>
    exact ⟨h.1, fun d hd => h.2.1 d (List.mem_append_left _ hd), ih h.2.2⟩

theorem SInv_rel {xs ys : List DataChunk} (h : SInv (xs ++ ys)) :
    ∀ x ∈ xs, ∀ y ∈ ys, x.end' < y.start := by
  induction xs with
  | nil => intro x hx; cases hx
  | cons a xs ih =>
    intro x hx y hy
    rcases List.mem_cons.mp hx with rfl | hx'
    · exact h.2.1 y (List.mem_append_right _ hy)
    · exact ih h.2.2 x hx' y hy

theorem dropWhile_head_false {α : Type} (p : α → Bool) :
    ∀ (l : List α) (d : α) (t : List α), l.dropWhile p = d :: t → p d = false := by
  intro l
  induction l with
  | nil => intro d t h; cases h
  | cons a l ih =>
    intro d t h
    by_cases hp : p a = true
    · rw [List.dropWhile_cons_of_pos hp] at h; exact ih d t h
    · rw [List.dropWhile_cons_of_neg hp] at h
      cases h
      exact Bool.eq_false_iff.mpr hp

theorem drop_append_len {α : Type} (xs ys : List α) (k : Nat) :
    (xs ++ ys).drop (xs.length + k) = ys.drop k := by
  induction xs with
  | nil => simp
  | cons x xs ih =>
    have harith : (x :: xs).length + k = (xs.length + k) + 1 := by
      simp only [List.length_cons]; omega
    rw [harith, List.cons_append, List.drop_succ_cons, ih]

theorem takeWhile_append_char {α : Type} (p : α → Bool) :
    ∀ (xs ys : List α), (∀ x ∈ xs, p x = true) →
    (∀ y t, ys = y :: t → p y = false) →
    (xs ++ ys).takeWhile p = xs ∧ (xs ++ ys).dropWhile p = ys
  | [], ys, _, hys => by
    cases ys with
    | nil => simp
    | cons y t =>
      have := hys y t rfl
      simp [List.takeWhile_cons, List.dropWhile_cons, this]
  | x :: xs, ys, hxs, hys => by
    have hx := hxs x (by simp)
    have ih := takeWhile_append_char p xs ys (fun a ha => hxs a (by simp [ha])) hys
    simp [List.takeWhile_cons, List.dropWhile_cons, hx, ih.1, ih.2]

/-- C1: adding `DataChunk(12, [100,101])` to a `SparseData` holding the single
region `DataChunk(10, [0..9])` with `collision_error = False` succeeds but
leaves two overlapping regions: the merged region `[10,20)` and the original
region `[10,20)` both stay in the list, violating the no-overlap (and
no-adjacency-free sortedness) invariant claimed for every successful `add`. -/
theorem addone_overlap_invariant_violated :
    sortedByStart [⟨10, [0,1,2,3,4,5,6,7,8,9]⟩] = true ∧
    noOverlap [⟨10, [0,1,2,3,4,5,6,7,8,9]⟩] = true ∧
    noAdjacent [⟨10, [0,1,2,3,4,5,6,7,8,9]⟩] = true ∧
    allNonempty [⟨10, [0,1,2,3,4,5,6,7,8,9]⟩] = true ∧
    SparseData.addone ⟨false, [⟨10, [0,1,2,3,4,5,6,7,8,9]⟩]⟩ ⟨12, [100,101]⟩ =
      .ok ⟨false, [⟨10, [0,1,100,101,4,5,6,7,8,9]⟩, ⟨10, [0,1,2,3,4,5,6,7,8,9]⟩]⟩ ∧
    noOverlap [⟨10, [0,1,100,101,4,5,6,7,8,9]⟩, ⟨10, [0,1,2,3,4,5,6,7,8,9]⟩] = false := by
  decide

/-- C2: in the same overwrite scenario the non-overlapping remainders of the
loser are indeed spliced into one widened merged region (`[0,1]` below and
`[4..9]` above the incoming `[100,101]`), but the backing list is *not*
replaced by exactly that one merged region: the overlapped existing region
survives as a separate second entry. -/
theorem addone_overlap_loser_survives :
    SparseData.addone ⟨false, [⟨10, [0,1,2,3,4,5,6,7,8,9]⟩]⟩ ⟨12, [100,101]⟩ =
      .ok ⟨false, [⟨10, [0,1,100,101,4,5,6,7,8,9]⟩, ⟨10, [0,1,2,3,4,5,6,7,8,9]⟩]⟩ ∧
    ((SparseData.mk false [⟨10, [0,1,100,101,4,5,6,7,8,9]⟩, ⟨10, [0,1,2,3,4,5,6,7,8,9]⟩])._data.length
      = 2) := by
  decide

/-! ## C3: adjacency closure -/

/-- C3: for all non-empty regions `A`, `B` with `A.end == B.start`, adding `A`
then `B` to an empty `SparseData` yields exactly one region based at `A.start`
holding `A`'s bytes followed by `B`'s bytes (hence spanning `[A.start, B.end)`),
under either collision setting. -/
theorem add_adjacent_merges (ce : Bool) (a b : DataChunk)
    (ha : 0 < a.data.length) (hb : 0 < b.data.length) (hab : b.start = a.end') :
    SparseData.add ⟨ce, []⟩ [a, b] = .ok ⟨ce, [⟨a.start, a.data ++ b.data⟩]⟩ := by
  have ha' : ¬ a.data.length = 0 := Nat.pos_iff_ne_zero.mp ha
  have hb' : ¬ b.data.length = 0 := Nat.pos_iff_ne_zero.mp hb
  simp only [SparseData.add, SparseData.addone, ha', if_false, addoneLoop, spliceReplace]
  have h1 : ¬ a.end' < b.start := by omega
  have h2 : a.end' = b.start := hab.symm
  simp [h1, h2, hb', addoneLoop, spliceReplace, DataChunk.start]

/-- Witness for C3 at `A = DataChunk(0x1000, [0x0A])`, `B = DataChunk(0x1001,
[0x0B])` (concrete scenario 1 of the spec). -/
theorem add_adjacent_merges_witness :
    SparseData.add ⟨true, []⟩ [⟨0x1000, [0x0A]⟩, ⟨0x1001, [0x0B]⟩] =
      .ok ⟨true, [⟨0x1000, [0x0A, 0x0B]⟩]⟩ :=
  add_adjacent_merges true ⟨0x1000, [0x0A]⟩ ⟨0x1001, [0x0B]⟩
    (by decide) (by decide) (by decide)

theorem encode16LE_length (ws : List Nat) : (encode16LE ws).length = 2 * ws.length := by
  induction ws with
  | nil => rfl
  | cons a l ih => simp [encode16LE] at ih ⊢; omega

/-- Unpacking a byte list that starts with one full word reads that word
first. -/
theorem chunkWords_cons (e : Endian) (w : Nat) (hw : 0 < w) (xs bs : List Nat)
    (hxs : xs.length = w) :
    chunkWords e w (xs ++ bs) = wordOfBytes e xs :: chunkWords e w bs := by
  unfold chunkWords
  have hlen : (xs ++ bs).length / w = bs.length / w + 1 := by
    simp [List.length_append, hxs]
    rw [Nat.add_comm, Nat.add_div_right _ hw]
  rw [hlen, List.range_succ_eq_map, List.map_cons]
  congr 1
  · simp [← hxs, List.take_left]
  · rw [List.map_map]
    apply List.map_congr_left
    intro i _
    simp only [Function.comp_apply]
    congr 1
    have : (i + 1) * w = xs.length + i * w := by rw [hxs]; ring
    rw [this, ← List.drop_drop, List.drop_left]

/-- Decoding the little-endian encoding of a word sequence as 16-bit words
gives the sequence back. -/
theorem chunkWords_encode16LE (ws : List Nat) :
    chunkWords .LE 2 (encode16LE ws) = ws := by
  induction ws with
  | nil => rfl
  | cons a l ih =>
    have : encode16LE (a :: l) = [a % 256, a / 256] ++ encode16LE l := by
      simp [encode16LE]
    rw [this, chunkWords_cons .LE 2 (by omega) _ _ (by simp), ih]
    congr 1
    simp only [wordOfBytes, List.reverse_cons, List.reverse_nil, List.nil_append,
      List.cons_append, List.foldl_cons, List.foldl_nil]
    omega

/-! ### C8: checksum of an empty SparseData -/

/-- C8: for each of `sum8`, `sum16`, `sum32` and `fletcher32`, checksumming a
`SparseData` with zero regions returns the distinguishable `None` result,
whatever the endianness, strictness settings and collision flag, and that
result differs from every integer value (in particular zero) and from both
error outcomes. -/
theorem checksum_empty_is_none (st : CkSettings) (ce : Bool) :
    sum8 st ⟨ce, []⟩ = .none ∧ sum16 st ⟨ce, []⟩ = .none ∧
    sum32 st ⟨ce, []⟩ = .none ∧ fletcher32 st ⟨ce, []⟩ = .none ∧
    (∀ v : Nat, (CkResult.none : CkResult) ≠ .value v) ∧
    (CkResult.none : CkResult) ≠ .nonContiguous ∧
    (CkResult.none : CkResult) ≠ .nonIntegerWordCount :=
  ⟨rfl, rfl, rfl, rfl, fun v => by simp, by simp, by simp⟩

theorem chunkMaker_iwc_false_trunc (e : Endian) (w : Nat) (hw : 0 < w)
    (l : List DataChunk) :
    chunkMaker e w false (l.map (truncChunk w)) = chunkMaker e w false l := by
  induction l with
  | nil => rfl
  | cons c rest ih =>
    have hmul : c.data.length - c.data.length % w = w * (c.data.length / w) := by
      have := Nat.div_add_mod c.data.length w
      omega
    have hlen : (truncChunk w c).data.length = c.data.length - c.data.length % w := by
      simp [truncChunk]
    have hmod : (truncChunk w c).data.length % w = 0 := by
      rw [hlen, hmul, Nat.mul_mod_right]
    have hmod' : (c.data.length - c.data.length % w) % w = 0 := by
      rw [hmul]; exact Nat.mul_mod_right _ _
    simp only [List.map_cons, chunkMaker, hmod, hlen, ih]
    simp [truncChunk, List.take_take, hmod']

theorem chunkMaker_iwc_false_isSome (e : Endian) (w : Nat) (l : List DataChunk) :
    chunkMaker e w false l ≠ none := by
  induction l with
  | nil => simp [chunkMaker]
  | cons c rest ih =>
    simp only [chunkMaker]
    simp only [Bool.false_eq_true, and_false, if_false]
    cases h : chunkMaker e w false rest with
    | none => exact absurd h ih
    | some ws => simp

theorem _checksum_trunc (w : Nat) (hw : 0 < w) (fn : List Nat → Nat)
    (st : CkSettings) (hiwc : st.force_integer_wordcount = false) (sd : SparseData) :
    _checksum w fn st sd = _checksum w fn st (truncSD w sd) ∧
    _checksum w fn st sd ≠ .nonIntegerWordCount := by
  unfold _checksum truncSD
  simp only [List.length_map, hiwc]
  by_cases h0 : sd._data.length = 0
  · simp [h0]
  · simp only [h0, if_false]
    by_cases h1 : 1 < sd._data.length ∧ st.force_contiguous_checksum = true
    · simp [h1]
    · simp only [h1, if_false]
      rw [chunkMaker_iwc_false_trunc _ _ hw]
      cases h : chunkMaker st.endian w false sd._data with
      | none => exact absurd h (chunkMaker_iwc_false_isSome _ _ _)
      | some ws => simp

/-- C10: with `force_integer_wordcount = False`, a region whose byte length is
not a multiple of the word size has its trailing `len mod w` bytes silently
excluded: every checksum function returns the same result as on the data with
each region truncated to whole words, and never raises
`NonIntegerWordCountError`. -/
theorem checksum_partial_word_truncates (st : CkSettings)
    (hiwc : st.force_integer_wordcount = false) (sd : SparseData) :
    sum8 st sd = sum8 st (truncSD 1 sd) ∧
    sum16 st sd = sum16 st (truncSD 2 sd) ∧
    sum32 st sd = sum32 st (truncSD 4 sd) ∧
    fletcher32 st sd = fletcher32 st (truncSD 2 sd) ∧
    sum8 st sd ≠ .nonIntegerWordCount ∧
    sum16 st sd ≠ .nonIntegerWordCount ∧
    sum32 st sd ≠ .nonIntegerWordCount ∧
    fletcher32 st sd ≠ .nonIntegerWordCount := by
  have h1 := _checksum_trunc 1 (by omega) (fun ws => ws.sum % 256) st hiwc sd
  have h2 := _checksum_trunc 2 (by omega) (fun ws => ws.sum % 65536) st hiwc sd
  have h4 := _checksum_trunc 4 (by omega) (fun ws => ws.sum % 4294967296) st hiwc sd
  have hf := _checksum_trunc 2 (by omega) fletcherAccum st hiwc sd
  exact ⟨h1.1, h2.1, h4.1, hf.1, h1.2, h2.2, h4.2, hf.2⟩

/-- Witness for C10 at a one-region `SparseData` of three bytes, checksummed
with 2- and 4-byte words (both truncate) under lenient word-count settings. -/
theorem checksum_partial_word_truncates_witness :
    sum8 ⟨.LE, true, false⟩ ⟨true, [⟨0, [1, 2, 3]⟩]⟩ =
      sum8 ⟨.LE, true, false⟩ (truncSD 1 ⟨true, [⟨0, [1, 2, 3]⟩]⟩) ∧
    sum16 ⟨.LE, true, false⟩ ⟨true, [⟨0, [1, 2, 3]⟩]⟩ =
      sum16 ⟨.LE, true, false⟩ (truncSD 2 ⟨true, [⟨0, [1, 2, 3]⟩]⟩) ∧
    sum32 ⟨.LE, true, false⟩ ⟨true, [⟨0, [1, 2, 3]⟩]⟩ =
      sum32 ⟨.LE, true, false⟩ (truncSD 4 ⟨true, [⟨0, [1, 2, 3]⟩]⟩) ∧
    fletcher32 ⟨.LE, true, false⟩ ⟨true, [⟨0, [1, 2, 3]⟩]⟩ =
      fletcher32 ⟨.LE, true, false⟩ (truncSD 2 ⟨true, [⟨0, [1, 2, 3]⟩]⟩) ∧
    sum8 ⟨.LE, true, false⟩ ⟨true, [⟨0, [1, 2, 3]⟩]⟩ ≠ .nonIntegerWordCount ∧
    sum16 ⟨.LE, true, false⟩ ⟨true, [⟨0, [1, 2, 3]⟩]⟩ ≠ .nonIntegerWordCount ∧
    sum32 ⟨.LE, true, false⟩ ⟨true, [⟨0, [1, 2, 3]⟩]⟩ ≠ .nonIntegerWordCount ∧
    fletcher32 ⟨.LE, true, false⟩ ⟨true, [⟨0, [1, 2, 3]⟩]⟩ ≠ .nonIntegerWordCount :=
  checksum_partial_word_truncates ⟨.LE, true, false⟩ rfl ⟨true, [⟨0, [1, 2, 3]⟩]⟩

/-! ### C5: order sensitivity of fletcher32 versus sum16 -/

theorem _checksum_single_encode16 (fn : List Nat → Nat)
    (fcc iwc ce : Bool) (base : Nat) (ws : List Nat) :
    _checksum 2 fn ⟨.LE, fcc, iwc⟩ ⟨ce, [⟨base, encode16LE ws⟩]⟩ = .value (fn ws) := by
  unfold _checksum
  simp only [List.length_singleton]
  have hmod : (encode16LE ws).length % 2 = 0 := by
    rw [encode16LE_length, Nat.mul_mod_right]
  simp only [chunkMaker, hmod]
  simp [chunkWords_encode16LE]

/-- C5 counterexample: the single-region input whose 16-bit little-endian word
sequence is the palindrome `[1, 2, 1]` contains two distinct nonzero words
(`1` and `2`), yet reversing the word order leaves the word sequence -- and
hence the `fletcher32` result -- unchanged, contradicting the claim that the
reversal must change the result for any such input. -/
theorem fletcher32_reverse_palindrome_equal :
    List.reverse [1, 2, 1] = ([1, 2, 1] : List Nat) ∧
    ((1 : Nat) ≠ 2 ∧ (1 : Nat) ≠ 0 ∧ (2 : Nat) ≠ 0 ∧
      (1 : Nat) ∈ [1, 2, 1] ∧ (2 : Nat) ∈ [1, 2, 1]) ∧
    chunkMaker .LE 2 true [⟨0, encode16LE [1, 2, 1]⟩] = some [1, 2, 1] ∧
    fletcher32 ⟨.LE, true, true⟩ ⟨true, [⟨0, encode16LE (List.reverse [1, 2, 1])⟩]⟩ =
      fletcher32 ⟨.LE, true, true⟩ ⟨true, [⟨0, encode16LE [1, 2, 1]⟩]⟩ := by
  decide

/-- C5 (amended): `sum16` of a single-region input is invariant under
reversing its 16-bit word order; `fletcher32` is order-sensitive in that
reversing the word order changes its result on some inputs with two distinct
nonzero words (e.g. words `[1, 2]`), but not on every such input: a
palindromic word sequence such as `[1, 2, 1]` is unchanged by the reversal and
therefore yields the same result. -/
theorem sum16_reverse_invariant_fletcher32_not (ws : List Nat)
    (hw : ∀ w ∈ ws, w < 65536) (base : Nat) (ce fcc iwc : Bool) :
    sum16 ⟨.LE, fcc, iwc⟩ ⟨ce, [⟨base, encode16LE ws.reverse⟩]⟩ =
      sum16 ⟨.LE, fcc, iwc⟩ ⟨ce, [⟨base, encode16LE ws⟩]⟩ ∧
    fletcher32 ⟨.LE, true, true⟩ ⟨true, [⟨0, encode16LE [2, 1]⟩]⟩ ≠
      fletcher32 ⟨.LE, true, true⟩ ⟨true, [⟨0, encode16LE [1, 2]⟩]⟩ ∧
    fletcher32 ⟨.LE, true, true⟩ ⟨true, [⟨0, encode16LE (List.reverse [1, 2, 1])⟩]⟩ =
      fletcher32 ⟨.LE, true, true⟩ ⟨true, [⟨0, encode16LE [1, 2, 1]⟩]⟩ := by
  refine ⟨?_, by decide, by decide⟩
  unfold sum16
  rw [_checksum_single_encode16, _checksum_single_encode16]
  simp [List.sum_reverse]

/-- Witness for C5 at the word list `[1, 2]`. -/
theorem sum16_reverse_invariant_fletcher32_not_witness :
    sum16 ⟨.LE, true, true⟩ ⟨true, [⟨0, encode16LE (List.reverse [1, 2])⟩]⟩ =
      sum16 ⟨.LE, true, true⟩ ⟨true, [⟨0, encode16LE [1, 2]⟩]⟩ ∧
    fletcher32 ⟨.LE, true, true⟩ ⟨true, [⟨0, encode16LE [2, 1]⟩]⟩ ≠
      fletcher32 ⟨.LE, true, true⟩ ⟨true, [⟨0, encode16LE [1, 2]⟩]⟩ ∧
    fletcher32 ⟨.LE, true, true⟩ ⟨true, [⟨0, encode16LE (List.reverse [1, 2, 1])⟩]⟩ =
      fletcher32 ⟨.LE, true, true⟩ ⟨true, [⟨0, encode16LE [1, 2, 1]⟩]⟩ :=
  sum16_reverse_invariant_fletcher32_not [1, 2] (by decide) 0 true true true

theorem hexVal_hexDigit (v : Nat) (h : v < 16) : hexVal (hexDigit v) = v := by
  revert h; revert v; decide

theorem isHexUp_hexDigit (v : Nat) (h : v < 16) : isHexUp (hexDigit v) = true := by
  revert h; revert v; decide

theorem fmt02X_byte (n : Nat) (h : n < 256) :
    fmt02X n = [hexDigit (n / 16), hexDigit (n % 16)] := by
  by_cases h16 : n < 16
  · have h0 : n / 16 = 0 := Nat.div_eq_of_lt h16
    have hm : n % 16 = n := Nat.mod_eq_of_lt h16
    simp [fmt02X, hexDigits, hexDigitsAux, h16, h0, hm, hexDigit, List.replicate]
  · obtain ⟨m, rfl⟩ : ∃ m, n = m + 1 := ⟨n - 1, by omega⟩
    have hq : (m + 1) / 16 < 16 := by omega
    simp only [fmt02X, hexDigits, hexDigitsAux, h16, if_false]
    simp [hq]

theorem hexPairs_fmt02X (b : Nat) (h : b < 256) (rest : List Char) :
    hexPairs (fmt02X b ++ rest) = b :: hexPairs rest := by
  rw [fmt02X_byte b h]
  cases rest with
  | nil =>
    simp [hexPairs, hexVal_hexDigit _ (by omega : b / 16 < 16),
      hexVal_hexDigit _ (by omega : b % 16 < 16)]
    omega
  | cons c cs =>
    simp [hexPairs, hexVal_hexDigit _ (by omega : b / 16 < 16),
      hexVal_hexDigit _ (by omega : b % 16 < 16)]
    omega

/-! ### C7: automatic address-width selection -/

/-- C7 counterexample: a `SparseData` whose single region holds exactly the
one byte at address `0xFFFF` — the highest address present fits in two bytes —
has `end() = 0x10000`, so the auto-selection picks width 3, not the claimed
width 2. -/
theorem autoAddressBytes_highest_0xFFFF_picks_3 :
    (SparseData.mk true [⟨0xFFFF, [0xAB]⟩]).end? = some 0x10000 ∧
    (0xFFFF : Nat) ≤ 0xFFFF ∧
    SrecOutput.autoAddressBytes ⟨true, [⟨0xFFFF, [0xAB]⟩]⟩ = .ok 3 ∧
    (3 : Nat) ≠ 2 := by
  decide

/-- C7 (amended): when `address_bytes` is not given, the width is selected
from `sdata.end()` (one past the highest address present): width 2 exactly
when `end() ≤ 0xFFFF` (highest address at most `0xFFFE`), width 3 exactly when
`0xFFFF < end() ≤ 0xFFFFFF`, and width 4 exactly when `0xFFFFFF < end()`. -/
theorem autoAddressBytes_from_end (sd : SparseData) (e : Nat) (he : sd.end? = some e) :
    (SrecOutput.autoAddressBytes sd = .ok 2 ↔ e ≤ 0xFFFF) ∧
    (SrecOutput.autoAddressBytes sd = .ok 3 ↔ 0xFFFF < e ∧ e ≤ 0xFFFFFF) ∧
    (SrecOutput.autoAddressBytes sd = .ok 4 ↔ 0xFFFFFF < e) := by
  simp only [SrecOutput.autoAddressBytes, he]
  split_ifs with h1 h2 <;> simp <;> omega

/-- Witness for C7 at the one-byte space based at 0. -/
theorem autoAddressBytes_from_end_witness :
    (SrecOutput.autoAddressBytes ⟨true, [⟨0, [7]⟩]⟩ = .ok 2 ↔ (1 : Nat) ≤ 0xFFFF) ∧
    (SrecOutput.autoAddressBytes ⟨true, [⟨0, [7]⟩]⟩ = .ok 3 ↔
      (0xFFFF : Nat) < 1 ∧ (1 : Nat) ≤ 0xFFFFFF) ∧
    (SrecOutput.autoAddressBytes ⟨true, [⟨0, [7]⟩]⟩ = .ok 4 ↔ (0xFFFFFF : Nat) < 1) :=
  autoAddressBytes_from_end ⟨true, [⟨0, [7]⟩]⟩ 1 (by decide)

/-! ### C6: S-record checksum validation -/

/-- C6: with checksum checking enabled, a data record passes validation
exactly when its checksum byte equals the one's complement of the low byte of
the byte-count field plus the sum of all address and payload bytes, and a
mismatch produces `InvalidRecord` carrying the line number and both checksum
values; concretely, the line `S1130000` + payload `00..0F` + checksum `74`
decodes to one chunk of bytes `0x00..0x0F` at address `0x0000`, and the same
line with checksum corrupted to `75` fails with `InvalidRecord` carrying
`0x74` (computed), `0x75` (given) and the line number. -/
theorem srec_checksum_acceptance (fl : SrecFlags) (hck : fl.force_good_checksum = true)
    (ln : Nat) (rec : SrecRecord)
    (hbc : (rec.blockdata.length : Int) = (rec.bytecountField : Int) - 1) :
    (validateRecord fl ln rec = none ↔
      rec.checksum = complement8 (rec.bytecountField + rec.blockdata.sum)) ∧
    (rec.checksum ≠ complement8 (rec.bytecountField + rec.blockdata.sum) →
      validateRecord fl ln rec =
        some (.invalidRecordChecksum (complement8 (rec.bytecountField + rec.blockdata.sum))
          rec.checksum ln)) ∧
    processLine defaultSrecFlags ⟨[], [], none, 0⟩ 0
        (String.toList "S1130000000102030405060708090A0B0C0D0E0F74") =
      .ok ⟨[⟨0, [0, 1, 2, 3, 4, 5, 6, 7, 8, 9, 10, 11, 12, 13, 14, 15]⟩], [], none, 1⟩ ∧
    processLine defaultSrecFlags ⟨[], [], none, 0⟩ 0
        (String.toList "S1130000000102030405060708090A0B0C0D0E0F75") =
      .error (.invalidRecordChecksum 0x74 0x75 0) := by
  refine ⟨?_, ?_, by decide, by decide⟩
  · unfold validateRecord
    rw [if_neg (by simp [hbc]), hck]
    by_cases h : rec.checksum = complement8 (rec.bytecountField + rec.blockdata.sum)
    · simp [h]
    · simp [h]
  · intro h
    unfold validateRecord
    rw [if_neg (by simp [hbc]), hck]
    simp [h]

theorem SInv.tail {c : DataChunk} {l : List DataChunk} (h : SInv (c :: l)) : SInv l :=
  h.2.2

theorem SInv_append_right {xs ys : List DataChunk} (h : SInv (xs ++ ys)) : SInv ys := by
  induction xs with
  | nil => exact h
  | cons x xs ih => exact ih h.2.2

theorem coveredBy_nil (a : Nat) : ¬ coveredBy [] a := by simp [coveredBy]

theorem coveredBy_append {xs ys : List DataChunk} {a : Nat} :
    coveredBy (xs ++ ys) a ↔ coveredBy xs a ∨ coveredBy ys a := by
  simp [coveredBy, or_and_right, exists_or]

theorem coveredBy_cons {d : DataChunk} {l : List DataChunk} {a : Nat} :
    coveredBy (d :: l) a ↔ (d.start ≤ a ∧ a < d.end') ∨ coveredBy l a := by
  simp [coveredBy]

/-- Skipping the regions strictly below the incoming chunk: each takes the
first loop branch, pushing `lbound` to the next index. -/
theorem addoneLoop_skipBelow (ce : Bool) (c : DataChunk) :
    ∀ (lo rest : List DataChunk) (idx ub : Nat),
    (∀ d ∈ lo, d.end' < c.start) →
    addoneLoop ce (lo ++ rest) idx idx ub c =
      addoneLoop ce rest (idx + lo.length) (idx + lo.length) ub c
  | [], rest, idx, ub, _ => by simp
  | d :: lo, rest, idx, ub, h => by
    have hd : d.end' < c.start := h d (by simp)
    have hrec := addoneLoop_skipBelow ce c lo rest (idx + 1) ub
      (fun x hx => h x (by simp [hx]))
    simp only [List.cons_append, addoneLoop, hd, if_true, if_pos hd]
    have harith : idx + (d :: lo).length = idx + 1 + lo.length := by
      simp only [List.length_cons]; omega
    rw [harith]
    exact hrec

/-- Once the next region starts at or above the incoming chunk's end, the
loop stops there: merging with it when byte-adjacent, breaking just below it
otherwise. -/
theorem addoneLoop_above_cons (ce : Bool) (dh : DataChunk) (t : List DataChunk)
    (idx lb ub : Nat) (c : DataChunk) (hc : 0 < c.data.length)
    (h1 : c.end' ≤ dh.start) :
    addoneLoop ce (dh :: t) idx lb ub c =
      if dh.start = c.end' then .ok lb (idx + 1) ⟨c.base, c.data ++ dh.data⟩
      else .ok lb idx c := by
  have hcs : c.start < c.end' := by
    simp only [DataChunk.start, DataChunk.end']; omega
  have hb1 : ¬ dh.end' < c.start := by
    simp only [DataChunk.start, DataChunk.end'] at *; omega
  have hb2 : ¬ dh.end' = c.start := by
    simp only [DataChunk.start, DataChunk.end'] at *; omega
  by_cases h3 : c.end' < dh.start
  · have h4 : ¬ dh.start = c.end' := by omega
    simp [addoneLoop, hb1, hb2, h3, h4]
  · have h4 : dh.start = c.end' := by omega
    simp [addoneLoop, hb1, hb2, h3, h4]

/-- Witness for C6 at the record decoded from the valid concrete line. -/
theorem srec_checksum_acceptance_witness :
    (validateRecord defaultSrecFlags 0
        ⟨1, 0x13, [0, 0, 0, 1, 2, 3, 4, 5, 6, 7, 8, 9, 10, 11, 12, 13, 14, 15], 0x74⟩ = none ↔
      (0x74 : Nat) = complement8 (0x13 +
        ([0, 0, 0, 1, 2, 3, 4, 5, 6, 7, 8, 9, 10, 11, 12, 13, 14, 15] : List Nat).sum)) ∧
    ((0x74 : Nat) ≠ complement8 (0x13 +
        ([0, 0, 0, 1, 2, 3, 4, 5, 6, 7, 8, 9, 10, 11, 12, 13, 14, 15] : List Nat).sum) →
      validateRecord defaultSrecFlags 0
          ⟨1, 0x13, [0, 0, 0, 1, 2, 3, 4, 5, 6, 7, 8, 9, 10, 11, 12, 13, 14, 15], 0x74⟩ =
        some (.invalidRecordChecksum (complement8 (0x13 +
          ([0, 0, 0, 1, 2, 3, 4, 5, 6, 7, 8, 9, 10, 11, 12, 13, 14, 15] : List Nat).sum))
          0x74 0)) ∧
    processLine defaultSrecFlags ⟨[], [], none, 0⟩ 0
        (String.toList "S1130000000102030405060708090A0B0C0D0E0F74") =
      .ok ⟨[⟨0, [0, 1, 2, 3, 4, 5, 6, 7, 8, 9, 10, 11, 12, 13, 14, 15]⟩], [], none, 1⟩ ∧
    processLine defaultSrecFlags ⟨[], [], none, 0⟩ 0
        (String.toList "S1130000000102030405060708090A0B0C0D0E0F75") =
      .error (.invalidRecordChecksum 0x74 0x75 0) :=
  srec_checksum_acceptance defaultSrecFlags rfl 0
    ⟨1, 0x13, [0, 0, 0, 1, 2, 3, 4, 5, 6, 7, 8, 9, 10, 11, 12, 13, 14, 15], 0x74⟩ (by decide)

/-- `_addone` of a chunk that overlaps no region of an invariant-satisfying
list succeeds and produces exactly `insertMerge`. -/
theorem addone_insertMerge (ce : Bool) (l : List DataChunk) (c : DataChunk)
    (hinv : SInv l) (hc : 0 < c.data.length)
    (hno : ∀ d ∈ l, d.end' ≤ c.start ∨ c.end' ≤ d.start) :
    SparseData.addone ⟨ce, l⟩ c = .ok ⟨ce, insertMerge l c⟩ := by
  have hcne : ¬ c.data.length = 0 := by omega
  have hcend : c.start < c.end' := by
    simp only [DataChunk.start, DataChunk.end']; omega
  -- Split the list at the incoming chunk's start.
  have hsplit := (List.takeWhile_append_dropWhile
    (fun d => decide (d.end' ≤ c.start)) l).symm
  set lo := l.takeWhile (fun d => decide (d.end' ≤ c.start)) with hlo_def
  set hi := l.dropWhile (fun d => decide (d.end' ≤ c.start)) with hhi_def
  have hlo_le : ∀ d ∈ lo, d.end' ≤ c.start := by
    intro d hd
    have := List.mem_takeWhile_imp hd
    simpa using this
  have hSinv_hi : SInv hi := SInv_append_right (hsplit ▸ hinv)
  have hhi_ge : ∀ d ∈ hi, c.end' ≤ d.start := by
    intro d hd
    cases hhd : hi with
    | nil => rw [hhd] at hd; cases hd
    | cons dh t =>
      have hdh_false : (fun d => decide (d.end' ≤ c.start)) dh = false :=
        dropWhile_head_false _ l dh t (by rw [← hhi_def, hhd])
      have hdh : ¬ dh.end' ≤ c.start := by simpa using hdh_false
      have hdh_mem : dh ∈ l := by
        rw [hsplit, hhd]
        exact List.mem_append_right _ (by simp)
      have hge_dh : c.end' ≤ dh.start := (hno dh hdh_mem).resolve_left hdh
      have hds : dh.start ≤ dh.end' := by
        simp only [DataChunk.start, DataChunk.end']; omega
      rw [hhd] at hd
      rcases List.mem_cons.mp hd with rfl | hd'
      · exact hge_dh
      · have hrel := (hhd ▸ hSinv_hi).2.1 d hd'
        omega
  clear_value lo hi
  -- The two sides of the equation, reduced.
  simp only [SparseData.addone, hcne, if_false]
  simp only [insertMerge, ← hlo_def, ← hhi_def]
  clear hlo_def hhi_def hSinv_hi hno
  rcases List.eq_nil_or_concat lo with hlo2 | ⟨lo₀, dl, hlo2⟩
  · -- no region at or below the chunk: the chunk lands in front.
    have hleq : l = hi := by rw [hsplit, hlo2]; simp
    cases hi with
    | nil =>
      rw [hlo2, hleq]
      simp [addoneLoop, spliceReplace, mergeHigh]
    | cons dh t =>
      rw [hlo2, hleq]
      have habove := addoneLoop_above_cons ce dh t 0 0 (dh :: t).length c hc
        (hhi_ge dh (by simp))
      rw [habove]
      by_cases hadj : dh.start = c.end'
      · simp [hadj, spliceReplace, mergeHigh]
      · simp [hadj, spliceReplace, mergeHigh]
  · -- there are regions below; the last of them may merge from below.
    rw [List.concat_eq_append] at hlo2
    have hleq : l = lo₀ ++ [dl] ++ hi := by rw [hsplit, hlo2]
    have hdl_le : dl.end' ≤ c.start := hlo_le dl (by rw [hlo2]; simp)
    have hlo₀_lt : ∀ d ∈ lo₀, d.end' < c.start := by
      intro d hd
      have h1 := @SInv_rel lo₀ ([dl] ++ hi)
        (by rw [← List.append_assoc, ← hleq]; exact hinv) d hd dl (by simp)
      have h2 : dl.start ≤ dl.end' := by
        simp only [DataChunk.start, DataChunk.end']; omega
      omega
    have hlast : lo.getLast? = some dl := by rw [hlo2]; simp
    have hdroplast : lo.dropLast = lo₀ := by rw [hlo2]; simp
    simp only [hlast, hdroplast]
    have htake : l.take lo₀.length = lo₀ := by
      rw [hleq, List.append_assoc, List.take_left]
    by_cases hadj : dl.end' = c.start
    · -- merge with the lower neighbour
      have hloop : ∀ ub, addoneLoop ce l 0 0 ub c =
          addoneLoop ce hi (lo₀.length + 1) lo₀.length ub
            ⟨dl.base, dl.data ++ c.data⟩ := by
        intro ub
        rw [hleq, List.append_assoc,
          addoneLoop_skipBelow ce c lo₀ ([dl] ++ hi) 0 ub hlo₀_lt]
        have h1 : ¬ dl.end' < c.start := by omega
        simp only [List.cons_append, List.nil_append, addoneLoop, if_neg h1,
          if_pos hadj, Nat.zero_add]
        rfl
      have hc'_len : 0 < (DataChunk.mk dl.base (dl.data ++ c.data)).data.length := by
        simp
        omega
      have hc'_end : (DataChunk.mk dl.base (dl.data ++ c.data)).end' = c.end' := by
        have hb : dl.base + dl.data.length = c.base := hadj
        simp only [DataChunk.end', List.length_append, DataChunk.start] at hb hcend ⊢
        omega
      rw [if_pos hadj]
      cases hi with
      | nil =>
        rw [hloop l.length]
        have hlen : l.length = lo₀.length + 1 := by rw [hleq]; simp
        have hmax : max lo₀.length l.length = l.length := by omega
        have hdrop : l.drop l.length = [] := by simp
        simp [addoneLoop, spliceReplace, hmax, htake, hdrop, mergeHigh]
      | cons dh t =>
        have habove := addoneLoop_above_cons ce dh t (lo₀.length + 1)
          lo₀.length l.length ⟨dl.base, dl.data ++ c.data⟩ hc'_len
          (by rw [hc'_end]; exact hhi_ge dh (by simp))
        rw [hloop l.length, habove, hc'_end]
        simp only [mergeHigh, hc'_end]
        by_cases hadj2 : dh.start = c.end'
        · rw [if_pos hadj2, if_pos hadj2]
          have hmax : max lo₀.length (lo₀.length + 1 + 1) = lo₀.length + 2 := by omega
          have hdrop : l.drop (lo₀.length + 2) = t := by
            rw [hleq, List.append_assoc, drop_append_len]
            simp
          simp [spliceReplace, hmax, htake, hdrop]
        · rw [if_neg hadj2, if_neg hadj2]
          have hmax : max lo₀.length (lo₀.length + 1) = lo₀.length + 1 := by omega
          have hdrop : l.drop (lo₀.length + 1) = dh :: t := by
            rw [hleq, List.append_assoc, drop_append_len]
            simp
          simp [spliceReplace, hmax, htake, hdrop]
    · -- no merge below: every lower region is strictly below.
      have hdl_lt : dl.end' < c.start := by omega
      have hlo_lt : ∀ d ∈ lo, d.end' < c.start := by
        intro d hd
        rw [hlo2] at hd
        rcases List.mem_append.mp hd with hd' | hd'
        · exact hlo₀_lt d hd'
        · rcases List.mem_singleton.mp hd' with rfl
          exact hdl_lt
      have hloop : ∀ ub, addoneLoop ce l 0 0 ub c =
          addoneLoop ce hi lo.length lo.length ub c := by
        intro ub
        conv_lhs => rw [hsplit]
        rw [addoneLoop_skipBelow ce c lo hi 0 ub hlo_lt, Nat.zero_add]
      have htake2 : l.take lo.length = lo := by
        rw [hsplit, List.take_left]
      rw [if_neg hadj]
      cases hi with
      | nil =>
        rw [hloop l.length]
        have hlen : l.length = lo.length := by rw [hsplit]; simp
        have hmax : max lo.length l.length = l.length := by omega
        have hdrop : l.drop l.length = [] := by simp
        simp [addoneLoop, spliceReplace, hmax, htake2, hdrop, mergeHigh]
      | cons dh t =>
        have habove := addoneLoop_above_cons ce dh t lo.length
          lo.length l.length c hc (hhi_ge dh (by simp))
        rw [hloop l.length, habove]
        simp only [mergeHigh]
        by_cases hadj2 : dh.start = c.end'
        · rw [if_pos hadj2, if_pos hadj2]
          have hmax : max lo.length (lo.length + 1) = lo.length + 1 := by omega
          have hdrop : l.drop (lo.length + 1) = t := by
            rw [hsplit, drop_append_len]
            simp
          simp [spliceReplace, hmax, htake2, hdrop]
        · rw [if_neg hadj2, if_neg hadj2]
          have hmax : max lo.length lo.length = lo.length := by omega
          have hdrop : l.drop lo.length = dh :: t := by
            have h0 : lo.length = lo.length + 0 := by omega
            rw [hsplit, h0, drop_append_len]
            simp
          simp [spliceReplace, hmax, htake2, hdrop]

theorem SInv_append {xs ys : List DataChunk} (hx : SInv xs) (hy : SInv ys)
    (hrel : ∀ x ∈ xs, ∀ y ∈ ys, x.end' < y.start) : SInv (xs ++ ys) := by
  induction xs with
  | nil => exact hy
  | cons x xs ih =>
    refine ⟨hx.1, ?_, ih hx.2.2 (fun a ha => hrel a (by simp [ha]))⟩
    intro d hd
    rcases List.mem_append.mp hd with hd' | hd'
    · exact hx.2.1 d hd'
    · exact hrel x (by simp) d hd'

/-- The merged insertion preserves the region-list invariant, provided the
inserted chunk sits strictly above the regions before it and at-or-below the
regions after it. -/
theorem SInv_mergeHigh (pre : List DataChunk) (c : DataChunk) (hi : List DataChunk)
    (hpre : SInv pre) (hhiInv : SInv hi) (hc : 0 < c.data.length)
    (hrel1 : ∀ x ∈ pre, x.end' < c.start) (hrel2 : ∀ y ∈ hi, c.end' ≤ y.start) :
    SInv (mergeHigh pre c hi) := by
  have hcse : c.start < c.end' := by
    simp only [DataChunk.start, DataChunk.end']; omega
  cases hi with
  | nil =>
    simp only [mergeHigh]
    refine SInv_append hpre ⟨hc, by simp, trivial⟩ ?_
    intro x hx y hy
    rcases List.mem_singleton.mp hy with rfl
    exact hrel1 x hx
  | cons dh t =>
    have hle : c.end' ≤ dh.start := hrel2 dh (by simp)
    have hdhse : dh.start ≤ dh.end' := by
      simp only [DataChunk.start, DataChunk.end']; omega
    simp only [mergeHigh]
    by_cases hadj : dh.start = c.end'
    · rw [if_pos hadj]
      have hmend : (DataChunk.mk c.base (c.data ++ dh.data)).end' = dh.end' := by
        simp only [DataChunk.start, DataChunk.end', List.length_append] at hadj ⊢
        omega
      refine SInv_append hpre ⟨by simp; omega, ?_, hhiInv.tail⟩ ?_
      · intro d hd
        rw [hmend]
        exact hhiInv.2.1 d hd
      · intro x hx y hy
        rcases List.mem_cons.mp hy with rfl | hy'
        · exact hrel1 x hx
        · have h1 := hrel1 x hx
          have h2 := hhiInv.2.1 y hy'
          omega
    · rw [if_neg hadj]
      have hlt : c.end' < dh.start := by omega
      refine SInv_append hpre ⟨hc, ?_, hhiInv⟩ ?_
      · intro d hd
        rcases List.mem_cons.mp hd with rfl | hd'
        · exact hlt
        · have h1 := hhiInv.2.1 d hd'
          omega
      · intro x hx y hy
        have h1 := hrel1 x hx
        rcases List.mem_cons.mp hy with rfl | hy'
        · omega
        · rcases List.mem_cons.mp hy' with rfl | hy''
          · omega
          · have h2 := hhiInv.2.1 y hy''
            omega

/-- Coverage of the merged insertion: the surrounding regions plus the
inserted chunk's range. -/
theorem coveredBy_mergeHigh (pre : List DataChunk) (c : DataChunk)
    (hi : List DataChunk) (a : Nat) :
    coveredBy (mergeHigh pre c hi) a ↔
      (coveredBy pre a ∨ (c.start ≤ a ∧ a < c.end') ∨ coveredBy hi a) := by
  cases hi with
  | nil =>
    rw [show mergeHigh pre c [] = pre ++ [c] from rfl, coveredBy_append, coveredBy_cons]
  | cons dh t =>
    simp only [mergeHigh]
    by_cases hadj : dh.start = c.end'
    · rw [if_pos hadj, coveredBy_append, coveredBy_cons, coveredBy_cons]
      have hr : ((DataChunk.mk c.base (c.data ++ dh.data)).start ≤ a ∧
          a < (DataChunk.mk c.base (c.data ++ dh.data)).end') ↔
          ((c.start ≤ a ∧ a < c.end') ∨ (dh.start ≤ a ∧ a < dh.end')) := by
        simp only [DataChunk.start, DataChunk.end', List.length_append] at hadj ⊢
        omega
      tauto
    · rw [if_neg hadj, coveredBy_append, coveredBy_cons, coveredBy_cons]

/-- The merged insertion of a non-overlapping chunk preserves the region-list
invariant, and its coverage is the old coverage plus the chunk's range. -/
theorem insertMerge_props (l : List DataChunk) (c : DataChunk)
    (hinv : SInv l) (hc : 0 < c.data.length)
    (hno : ∀ d ∈ l, d.end' ≤ c.start ∨ c.end' ≤ d.start) :
    SInv (insertMerge l c) ∧
    ∀ a, coveredBy (insertMerge l c) a ↔
      (coveredBy l a ∨ (c.start ≤ a ∧ a < c.end')) := by
  have hcend : c.start < c.end' := by
    simp only [DataChunk.start, DataChunk.end']; omega
  have hsplit := (List.takeWhile_append_dropWhile
    (fun d => decide (d.end' ≤ c.start)) l).symm
  set lo := l.takeWhile (fun d => decide (d.end' ≤ c.start)) with hlo_def
  set hi := l.dropWhile (fun d => decide (d.end' ≤ c.start)) with hhi_def
  have hlo_le : ∀ d ∈ lo, d.end' ≤ c.start := by
    intro d hd
    have := List.mem_takeWhile_imp hd
    simpa using this
  have hSinv_hi : SInv hi := SInv_append_right (hsplit ▸ hinv)
  have hSinv_lo : SInv lo := SInv_append_left (hsplit ▸ hinv)
  have hrel_lohi : ∀ x ∈ lo, ∀ y ∈ hi, x.end' < y.start :=
    SInv_rel (hsplit ▸ hinv)
  have hhi_ge : ∀ d ∈ hi, c.end' ≤ d.start := by
    intro d hd
    cases hhd : hi with
    | nil => rw [hhd] at hd; cases hd
    | cons dh t =>
      have hdh_false : (fun d => decide (d.end' ≤ c.start)) dh = false :=
        dropWhile_head_false _ l dh t (by rw [← hhi_def, hhd])
      have hdh : ¬ dh.end' ≤ c.start := by simpa using hdh_false
      have hdh_mem : dh ∈ l := by
        rw [hsplit, hhd]
        exact List.mem_append_right _ (by simp)
      have hge_dh : c.end' ≤ dh.start := (hno dh hdh_mem).resolve_left hdh
      have hds : dh.start ≤ dh.end' := by
        simp only [DataChunk.start, DataChunk.end']; omega
      rw [hhd] at hd
      rcases List.mem_cons.mp hd with rfl | hd'
      · exact hge_dh
      · have hrel := (hhd ▸ hSinv_hi).2.1 d hd'
        omega
  clear_value lo hi
  have hcov : ∀ a, coveredBy l a ↔ (coveredBy lo a ∨ coveredBy hi a) := by
    intro a; rw [hsplit, coveredBy_append]
  simp only [insertMerge, ← hlo_def, ← hhi_def]
  clear hlo_def hhi_def hno hinv
  rcases List.eq_nil_or_concat lo with hlo2 | ⟨lo₀, dl, hlo2⟩
  · -- nothing below the chunk
    have hcovlo : ∀ a, ¬ coveredBy lo a := by
      intro a h; rw [hlo2] at h; exact coveredBy_nil a h
    rw [hlo2, List.getLast?_nil]
    constructor
    · exact SInv_mergeHigh [] c hi trivial hSinv_hi hc (by simp) hhi_ge
    · intro a
      rw [coveredBy_mergeHigh]
      have h1 : ¬ coveredBy ([] : List DataChunk) a := coveredBy_nil a
      have h2 := hcov a
      have h3 := hcovlo a
      tauto
  · -- regions below: the last may merge from below
    rw [List.concat_eq_append] at hlo2
    have hlast : lo.getLast? = some dl := by rw [hlo2]; simp
    have hdroplast : lo.dropLast = lo₀ := by rw [hlo2]; simp
    have hdl_le : dl.end' ≤ c.start := hlo_le dl (by rw [hlo2]; simp)
    have hSinv_lo₀ : SInv lo₀ := SInv_append_left (hlo2 ▸ hSinv_lo)
    have hrel_lo₀dl : ∀ d ∈ lo₀, d.end' < dl.start := by
      intro d hd
      exact SInv_rel (hlo2 ▸ hSinv_lo) d hd dl (by simp)
    have hdl_nonempty : 0 < dl.data.length := by
      have h : SInv [dl] := @SInv_append_right lo₀ _ (hlo2 ▸ hSinv_lo)
      exact h.1
    have hdl_se : dl.start < dl.end' := by
      simp only [DataChunk.start, DataChunk.end']; omega
    have hcovlo : ∀ a, coveredBy lo a ↔
        (coveredBy lo₀ a ∨ (dl.start ≤ a ∧ a < dl.end')) := by
      intro a
      rw [hlo2, coveredBy_append, coveredBy_cons]
      simp [coveredBy]
    simp only [hlast, hdroplast]
    by_cases hadj : dl.end' = c.start
    · rw [if_pos hadj]
      have hc'_end : (DataChunk.mk dl.base (dl.data ++ c.data)).end' = c.end' := by
        simp only [DataChunk.start, DataChunk.end', List.length_append] at hadj ⊢
        omega
      have hc'_pos : 0 < (DataChunk.mk dl.base (dl.data ++ c.data)).data.length := by
        simp
        omega
      have hc'_range : ∀ a,
          ((DataChunk.mk dl.base (dl.data ++ c.data)).start ≤ a ∧
            a < (DataChunk.mk dl.base (dl.data ++ c.data)).end') ↔
          ((dl.start ≤ a ∧ a < dl.end') ∨ (c.start ≤ a ∧ a < c.end')) := by
        intro a
        simp only [DataChunk.start, DataChunk.end', List.length_append] at hadj hcend ⊢
        omega
      constructor
      · refine SInv_mergeHigh lo₀ _ hi hSinv_lo₀ hSinv_hi hc'_pos ?_ ?_
        · intro x hx
          exact hrel_lo₀dl x hx
        · intro y hy
          rw [hc'_end]
          exact hhi_ge y hy
      · intro a
        rw [coveredBy_mergeHigh, hcov a, hcovlo a]
        have h1 := hc'_range a
        tauto
    · rw [if_neg hadj]
      have hdl_lt : dl.end' < c.start := by omega
      have hlo_lt : ∀ x ∈ lo, x.end' < c.start := by
        intro x hx
        rw [hlo2] at hx
        rcases List.mem_append.mp hx with hx' | hx'
        · have := hrel_lo₀dl x hx'
          omega
        · rcases List.mem_singleton.mp hx' with rfl
          exact hdl_lt
      constructor
      · exact SInv_mergeHigh lo c hi hSinv_lo hSinv_hi hc hlo_lt hhi_ge
      · intro a
        rw [coveredBy_mergeHigh, hcov a]
        tauto

theorem find?_split {α : Type} (p : α → Bool) :
    ∀ (l : List α) (d : α), l.find? p = some d →
    ∃ l1 l2, l = l1 ++ d :: l2 ∧ (∀ x ∈ l1, p x = false) ∧ p d = true
  | [], d, h => by cases h
  | a :: l, d, h => by
    by_cases hp : p a = true
    · rw [List.find?_cons_of_pos _ hp] at h
      cases h
      exact ⟨[], l, rfl, by simp, hp⟩
    · have hp' : p a = false := Bool.eq_false_iff.mpr hp
      rw [List.find?_cons_of_neg _ hp] at h
      obtain ⟨l1, l2, rfl, h1, h2⟩ := find?_split p l d h
      refine ⟨a :: l1, l2, rfl, ?_, h2⟩
      intro x hx
      rcases List.mem_cons.mp hx with rfl | hx'
      · exact hp'
      · exact h1 x hx'

/-- The fill loop on invariant-satisfying data whose regions do not straddle
the starting address: it terminates within its fuel, never raises
`CollisionError`, preserves the invariant, and afterwards covers exactly the
old data plus the whole range `[start, end)` — provided every block covers
exactly the gap it is asked to fill. -/
theorem fillLoop_covers (block : Nat → Nat → Nat → DataChunk)
    (hblk : ∀ pos addr len, (block pos addr len).base = addr ∧
      (block pos addr len).data.length = len) :
    ∀ (fuel : Nat) (pos : Nat) (l : List DataChunk) (ce : Bool) (start end_ : Nat),
    SInv l →
    (∀ d ∈ l, ¬ (d.start < start ∧ start < d.end')) →
    end_ - start < fuel →
    ∃ l', fillLoop block fuel pos ⟨ce, l⟩ start end_ = .ok ⟨ce, l'⟩ ∧
      SInv l' ∧
      (∀ a, coveredBy l' a ↔ (coveredBy l a ∨ (start ≤ a ∧ a < end_))) := by
  intro fuel
  induction fuel with
  | zero =>
    intro pos l ce start end_ _ _ hfuel
    exact absurd hfuel (Nat.not_lt_zero _)
  | succ fuel ih =>
    intro pos l ce start end_ hinv hns hfuel
    by_cases hlt : start < end_
    · simp only [fillLoop, if_pos hlt]
      rcases hfg : findGap l start end_ with _ | ⟨blockend, nextstart⟩
      · -- no region at or above start: one final block to the end
        have hnone : l.find? (fun d => decide (start ≤ d.start)) = none := by
          unfold findGap at hfg
          cases h : l.find? (fun d => decide (start ≤ d.start)) with
          | none => rfl
          | some d => rw [h] at hfg; cases hfg
        have hall : ∀ d ∈ l, d.start < start := by
          intro d hd
          have := List.find?_eq_none.mp hnone d hd
          simp at this
          omega
        have hcb : (block pos start (end_ - start)).base = start := (hblk _ _ _).1
        have hcl : (block pos start (end_ - start)).data.length = end_ - start :=
          (hblk _ _ _).2
        have hcpos : 0 < (block pos start (end_ - start)).data.length := by omega
        have hcstart : (block pos start (end_ - start)).start = start := hcb
        have hcend : (block pos start (end_ - start)).end' = end_ := by
          simp only [DataChunk.end', hcb, hcl]; omega
        have hno : ∀ d ∈ l, d.end' ≤ (block pos start (end_ - start)).start ∨
            (block pos start (end_ - start)).end' ≤ d.start := by
          intro d hd
          left
          have h1 := hall d hd
          have h2 := hns d hd
          rw [hcstart]
          omega
        obtain ⟨hsinv', hcov'⟩ :=
          insertMerge_props l (block pos start (end_ - start)) hinv hcpos hno
        refine ⟨insertMerge l (block pos start (end_ - start)), ?_, hsinv', ?_⟩
        · rw [addone_insertMerge ce l _ hinv hcpos hno]
        · intro a
          have h := hcov' a
          rw [hcstart, hcend] at h
          exact h
      · -- a region at or above start bounds the gap
        have hsome : ∃ d₀, l.find? (fun d => decide (start ≤ d.start)) = some d₀ ∧
            blockend = min d₀.start end_ ∧ nextstart = d₀.end' := by
          unfold findGap at hfg
          cases h : l.find? (fun d => decide (start ≤ d.start)) with
          | none => rw [h] at hfg; cases hfg
          | some d₀ =>
            rw [h] at hfg
            have h2 := (Prod.mk.injEq _ _ _ _).mp (Option.some.inj hfg)
            exact ⟨d₀, rfl, h2.1.symm, h2.2.symm⟩
        obtain ⟨d₀, hfind, hbe, hns2⟩ := hsome
        subst hbe
        subst hns2
        obtain ⟨l1, l2, rfl, hl1, hpd⟩ := find?_split _ l d₀ hfind
        have hd₀_ge : start ≤ d₀.start := by simpa using hpd
        have hl1_end : ∀ x ∈ l1, x.end' ≤ start := by
          intro x hx
          have h1 := hl1 x hx
          simp at h1
          have h2 := hns x (List.mem_append_left _ hx)
          omega
        have htl : SInv (d₀ :: l2) := @SInv_append_right l1 _ hinv
        have hd₀_pos : 0 < d₀.data.length := htl.1
        have hd₀_se : d₀.start < d₀.end' := by
          simp only [DataChunk.start, DataChunk.end']; omega
        have hl2_gt : ∀ y ∈ l2, d₀.end' < y.start := htl.2.1
        have hd₀cov : ∀ a, d₀.start ≤ a → a < d₀.end' →
            coveredBy (l1 ++ d₀ :: l2) a :=
          fun a h1 h2 => ⟨d₀, by simp, h1, h2⟩
        have hmin_ge : start ≤ min d₀.start end_ := le_min hd₀_ge (le_of_lt hlt)
        have hmin_le1 : min d₀.start end_ ≤ d₀.start := min_le_left _ _
        have hmin_le2 : min d₀.start end_ ≤ end_ := min_le_right _ _
        have hfuel' : end_ - d₀.end' < fuel := by omega
        have hnotcov_ns : ¬ coveredBy (l1 ++ d₀ :: l2) d₀.end' := by
          rintro ⟨d, hd, h1, h2⟩
          rcases List.mem_append.mp hd with hd' | hd'
          · have := hl1_end d hd'
            omega
          · rcases List.mem_cons.mp hd' with rfl | hd''
            · omega
            · have := hl2_gt d hd''
              omega
        by_cases hblk0 : min d₀.start end_ - start = 0
        · -- empty gap block: the add is a no-op
          have hd₀_eq : d₀.start = start := by omega
          have haddone : SparseData.addone ⟨ce, l1 ++ d₀ :: l2⟩
              (block pos start (min d₀.start end_ - start)) = .ok ⟨ce, l1 ++ d₀ :: l2⟩ := by
            unfold SparseData.addone
            rw [if_pos (by rw [(hblk _ _ _).2]; omega)]
          have hns' : ∀ d ∈ l1 ++ d₀ :: l2,
              ¬ (d.start < d₀.end' ∧ d₀.end' < d.end') := by
            intro d hd hcontra
            exact hnotcov_ns ⟨d, hd, le_of_lt hcontra.1, hcontra.2⟩
          obtain ⟨l', hrun, hsinv', hcov'⟩ :=
            ih (pos + (min d₀.start end_ - start)) (l1 ++ d₀ :: l2) ce d₀.end' end_
              hinv hns' hfuel'
          refine ⟨l', ?_, hsinv', ?_⟩
          · simp only [haddone]
            exact hrun
          · intro a
            rw [hcov' a]
            constructor
            · rintro (h | h)
              · exact Or.inl h
              · exact Or.inr ⟨by omega, h.2⟩
            · rintro (h | ⟨h1, h2⟩)
              · exact Or.inl h
              · by_cases hcase : d₀.end' ≤ a
                · exact Or.inr ⟨hcase, h2⟩
                · exact Or.inl (hd₀cov a (by omega) (by omega))
        · -- a real gap: insert its block and continue past the found region
          have hcb : (block pos start (min d₀.start end_ - start)).base = start :=
            (hblk _ _ _).1
          have hcl : (block pos start (min d₀.start end_ - start)).data.length =
              min d₀.start end_ - start := (hblk _ _ _).2
          have hcpos : 0 < (block pos start (min d₀.start end_ - start)).data.length := by
            omega
          have hcstart : (block pos start (min d₀.start end_ - start)).start = start := hcb
          have hcend : (block pos start (min d₀.start end_ - start)).end' =
              min d₀.start end_ := by
            simp only [DataChunk.end', hcb, hcl]; omega
          have hno : ∀ d ∈ l1 ++ d₀ :: l2,
              d.end' ≤ (block pos start (min d₀.start end_ - start)).start ∨
              (block pos start (min d₀.start end_ - start)).end' ≤ d.start := by
            intro d hd
            rw [hcstart, hcend]
            rcases List.mem_append.mp hd with hd' | hd'
            · exact Or.inl (hl1_end d hd')
            · rcases List.mem_cons.mp hd' with rfl | hd''
              · exact Or.inr hmin_le1
              · have := hl2_gt d hd''
                exact Or.inr (by omega)
          obtain ⟨hsinv1, hcov1⟩ := insertMerge_props (l1 ++ d₀ :: l2) _ hinv hcpos hno
          have hns' : ∀ d ∈ insertMerge (l1 ++ d₀ :: l2)
              (block pos start (min d₀.start end_ - start)),
              ¬ (d.start < d₀.end' ∧ d₀.end' < d.end') := by
            intro d hd hcontra
            have hcovered : coveredBy (insertMerge (l1 ++ d₀ :: l2)
                (block pos start (min d₀.start end_ - start))) d₀.end' :=
              ⟨d, hd, le_of_lt hcontra.1, hcontra.2⟩
            rw [hcov1 d₀.end'] at hcovered
            rcases hcovered with h | h
            · exact hnotcov_ns h
            · rw [hcstart, hcend] at h
              omega
          obtain ⟨l', hrun, hsinv', hcov'⟩ :=
            ih (pos + (min d₀.start end_ - start))
              (insertMerge (l1 ++ d₀ :: l2) (block pos start (min d₀.start end_ - start)))
              ce d₀.end' end_ hsinv1 hns' hfuel'
          have haddone2 : SparseData.addone ⟨ce, l1 ++ d₀ :: l2⟩
              (block pos start (min d₀.start end_ - start)) =
              .ok ⟨ce, insertMerge (l1 ++ d₀ :: l2)
                (block pos start (min d₀.start end_ - start))⟩ :=
            addone_insertMerge ce _ _ hinv hcpos hno
          refine ⟨l', ?_, hsinv', ?_⟩
          · simp only [haddone2]
            exact hrun
          · intro a
            rw [hcov' a, hcov1 a, hcstart, hcend]
            constructor
            · rintro ((h | h) | h)
              · exact Or.inl h
              · exact Or.inr ⟨h.1, by omega⟩
              · exact Or.inr ⟨by omega, h.2⟩
            · rintro (h | ⟨h1, h2⟩)
              · exact Or.inl (Or.inl h)
              · by_cases hc1 : a < min d₀.start end_
                · exact Or.inl (Or.inr ⟨h1, hc1⟩)
                · by_cases hc2 : d₀.end' ≤ a
                  · exact Or.inr ⟨hc2, h2⟩
                  · exact Or.inl (Or.inl (hd₀cov a (by omega) (by omega)))
    · simp only [fillLoop, if_neg hlt]
      refine ⟨l, rfl, hinv, ?_⟩
      intro a
      constructor
      · exact Or.inl
      · rintro (h | h)
        · exact h
        · omega

theorem blockOf_lengthExact (e : Endian) (source : FillSource)
    (hsrc : lengthExactSource source) :
    ∀ pos addr len, (blockOf e source pos addr len).base = addr ∧
      (blockOf e source pos addr len).data.length = len := by
  intro pos addr len
  cases source with
  | bytesPat pat =>
    refine ⟨rfl, ?_⟩
    simp only [blockOf, cycleTake]
    rw [if_neg hsrc]
    simp
  | intConst v =>
    have hv : v ≤ 0xFF := hsrc
    constructor
    · simp only [blockOf, if_pos hv]
    · simp only [blockOf, if_pos hv, List.length_replicate]
  | iter f =>
    refine ⟨rfl, ?_⟩
    simp [blockOf]

/-- C9 counterexample: `fill` does not always cover every address of
`[start, end)`.  A multi-byte integer constant (`0xFFFF`) over an empty
space and an odd-length range `[0, 5)` emits only two whole 16-bit words,
leaving address 4 uncovered; and when an existing region strictly straddles
`start` (region `[0, 10)`, range `[5, 12)`), the gap block collides with it
and `fill` raises `CollisionError` instead of returning a covered copy. -/
theorem fill_short_block_or_collision :
    fill .LE (.intConst 0xFFFF) ⟨true, []⟩ 0 5 =
      .ok ⟨true, [⟨0, [255, 255, 255, 255]⟩]⟩ ∧
    ¬ coveredBy [(⟨0, [255, 255, 255, 255]⟩ : DataChunk)] 4 ∧
    fill .LE (.bytesPat [255]) ⟨true, [⟨0, [1, 2, 3, 4, 5, 6, 7, 8, 9, 10]⟩]⟩ 5 12 =
      .collisionError := by
  refine ⟨by decide, by decide, by decide⟩

/-- C9 (corrected): for a source whose block covers exactly the requested
gap — a non-empty byte pattern, a one-byte integer constant, or an iterator
— and a well-formed region list none of whose regions strictly straddles
`start`, `fill` succeeds and the result covers exactly the old regions plus
every address of `[start, end)`; in particular filling a fully empty gap of
length 5 with the integer source `0xFF` produces exactly 5 bytes of `0xFF`.
With a multi-byte integer constant the last partial word of a gap stays
uncovered, and a region straddling `start` makes `fill` raise
`CollisionError`, so the original unrestricted claim fails. -/
theorem fill_gap_coverage (e : Endian) (source : FillSource)
    (hsrc : lengthExactSource source) (ce : Bool) (l : List DataChunk)
    (start end_ : Nat) (hinv : SInv l)
    (hns : ∀ d ∈ l, ¬ (d.start < start ∧ start < d.end')) :
    (∃ l', fill e source ⟨ce, l⟩ start end_ = .ok ⟨ce, l'⟩ ∧ SInv l' ∧
      (∀ a, coveredBy l' a ↔ (coveredBy l a ∨ (start ≤ a ∧ a < end_)))) ∧
    fill e (.intConst 255) ⟨true, []⟩ 0 5 =
      .ok ⟨true, [⟨0, List.replicate 5 255⟩]⟩ := by
  constructor
  · exact fillLoop_covers (blockOf e source) (blockOf_lengthExact e source hsrc)
      (end_ - start + 1) 0 l ce start end_ hinv hns (by omega)
  · cases e <;> rfl

/-! ### Text helpers for the codec round-trips -/

theorem map_id_of_mem {α : Type} (f : α → α) :
    ∀ (l : List α), (∀ x ∈ l, f x = x) → l.map f = l := by
  intro l h
  induction l with
  | nil => rfl
  | cons a l ih =>
    simp only [List.map_cons, h a (List.mem_cons_self a l)]
    rw [ih (fun x hx => h x (List.mem_cons_of_mem a hx))]

theorem dropWhile_all_false {α : Type} (p : α → Bool) :
    ∀ (l : List α), (∀ x ∈ l, p x = false) → l.dropWhile p = l
  | [], _ => rfl
  | a :: l, h => by
    simp [List.dropWhile_cons, h a (List.mem_cons_self a l)]

theorem filter_all_true {α : Type} (p : α → Bool) :
    ∀ (l : List α), (∀ x ∈ l, p x = true) → l.filter p = l
  | [], _ => rfl
  | a :: l, h => by
    simp only [List.filter_cons, h a (List.mem_cons_self a l), if_pos]
    rw [filter_all_true p l (fun x hx => h x (List.mem_cons_of_mem a hx))]

theorem pyStrip_id (cs : List Char) (h : ∀ c ∈ cs, isPySpace c = false) :
    pyStrip cs = cs := by
  unfold pyStrip
  rw [dropWhile_all_false _ cs h,
    dropWhile_all_false _ cs.reverse (fun c hc => h c (List.mem_reverse.mp hc)),
    List.reverse_reverse]

theorem pyUpper_hexDigit : ∀ v, v < 16 → pyUpper (hexDigit v) = hexDigit v := by decide

theorem isPySpace_hexDigit : ∀ v, v < 16 → isPySpace (hexDigit v) = false := by decide

theorem isHexAny_hexDigit : ∀ v, v < 16 → isHexAny (hexDigit v) = true := by decide

theorem hexValAny_hexDigit : ∀ v, v < 16 → hexValAny (hexDigit v) = v := by decide

theorem ne_colon_hexDigit : ∀ v, v < 16 → hexDigit v ≠ ':' := by decide

theorem mem_fmt02X (n : Nat) (h : n < 256) (c : Char) (hc : c ∈ fmt02X n) :
    ∃ v, v < 16 ∧ c = hexDigit v := by
  rw [fmt02X_byte n h] at hc
  rcases List.mem_cons.mp hc with rfl | hc'
  · exact ⟨n / 16, by omega, rfl⟩
  · rcases List.mem_cons.mp hc' with rfl | hc''
    · exact ⟨n % 16, by omega, rfl⟩
    · cases hc''

theorem complement8_lt (x : Nat) : complement8 x < 256 := by
  unfold complement8; omega

theorem negsum8_lt (x : Nat) : HexOutput.negsum8 x < 256 := by
  unfold HexOutput.negsum8; omega

theorem mem_flatten_fmt02X (d : List Nat) (hb : ∀ b ∈ d, b < 256) (c : Char)
    (hc : c ∈ (d.map fmt02X).flatten) : ∃ v, v < 16 ∧ c = hexDigit v := by
  obtain ⟨l, hl, hcl⟩ := List.mem_flatten.mp hc
  obtain ⟨b, hbd, rfl⟩ := List.mem_map.mp hl
  exact mem_fmt02X b (hb b hbd) c hcl

theorem mem_make_srec (d : List Nat) (hb : ∀ b ∈ d, b < 256)
    (hl : d.length + 1 < 256) (c : Char) (hc : c ∈ SrecOutput._make_srec d) :
    ∃ v, v < 16 ∧ c = hexDigit v := by
  unfold SrecOutput._make_srec at hc
  rcases List.mem_append.mp hc with hc' | hc'
  · rcases List.mem_append.mp hc' with hc'' | hc''
    · exact mem_fmt02X _ hl c hc''
    · exact mem_flatten_fmt02X d hb c hc''
  · exact mem_fmt02X _ (complement8_lt _) c hc'

theorem hexListVal_fmt02X (n : Nat) (h : n < 256) : hexListVal (fmt02X n) = n := by
  rw [fmt02X_byte n h]
  simp [hexListVal, hexVal_hexDigit _ (by omega : n / 16 < 16),
    hexVal_hexDigit _ (by omega : n % 16 < 16)]
  omega

theorem hexPairs_flatten_append (d : List Nat) (hb : ∀ b ∈ d, b < 256)
    (rest : List Char) :
    hexPairs ((d.map fmt02X).flatten ++ rest) = d ++ hexPairs rest := by
  induction d with
  | nil => simp
  | cons b l ih =>
    simp only [List.map_cons, List.flatten_cons, List.append_assoc]
    rw [hexPairs_fmt02X b (hb b (List.mem_cons_self b l)),
      ih (fun x hx => hb x (List.mem_cons_of_mem b hx))]
    rfl

theorem hexPairsAny_fmt02X (b : Nat) (h : b < 256) (rest : List Char) :
    hexPairsAny (fmt02X b ++ rest) = b :: hexPairsAny rest := by
  rw [fmt02X_byte b h]
  cases rest with
  | nil =>
    simp [hexPairsAny, hexValAny_hexDigit _ (by omega : b / 16 < 16),
      hexValAny_hexDigit _ (by omega : b % 16 < 16)]
    omega
  | cons c cs =>
    simp [hexPairsAny, hexValAny_hexDigit _ (by omega : b / 16 < 16),
      hexValAny_hexDigit _ (by omega : b % 16 < 16)]
    omega

theorem hexPairsAny_flatten_append (d : List Nat) (hb : ∀ b ∈ d, b < 256)
    (rest : List Char) :
    hexPairsAny ((d.map fmt02X).flatten ++ rest) = d ++ hexPairsAny rest := by
  induction d with
  | nil => simp
  | cons b l ih =>
    simp only [List.map_cons, List.flatten_cons, List.append_assoc]
    rw [hexPairsAny_fmt02X b (hb b (List.mem_cons_self b l)),
      ih (fun x hx => hb x (List.mem_cons_of_mem b hx))]
    rfl

theorem flatten_fmt02X_length (d : List Nat) (hb : ∀ b ∈ d, b < 256) :
    ((d.map fmt02X).flatten).length = 2 * d.length := by
  induction d with
  | nil => rfl
  | cons b l ih =>
    simp only [List.map_cons, List.flatten_cons, List.length_append,
      List.length_cons]
    rw [fmt02X_byte b (hb b (List.mem_cons_self b l)),
      ih (fun x hx => hb x (List.mem_cons_of_mem b hx))]
    simp; omega

theorem take_append_len {α : Type} (xs ys : List α) :
    (xs ++ ys).take xs.length = xs := by
  induction xs with
  | nil => rfl
  | cons x xs ih => simp [ih]

theorem read_make_bigendian_aux (ab : Nat) :
    ∀ (acc x : Nat),
    List.foldl (fun t d => t * 256 + d) acc
        ((List.range ab).map (fun i => x / 256 ^ (ab - 1 - i) % 256)) =
      acc * 256 ^ ab + x % 256 ^ ab := by
  induction ab with
  | zero => intro acc x; simp [Nat.mod_one]
  | succ ab ih =>
    intro acc x
    rw [List.range_succ_eq_map]
    simp only [List.map_cons, List.map_map, List.foldl_cons]
    have hfun : ((fun i => x / 256 ^ (ab + 1 - 1 - i) % 256) ∘ (fun i => i + 1)) =
        (fun i => x / 256 ^ (ab - 1 - i) % 256) := by
      funext i
      simp only [Function.comp]
      have he : ab + 1 - 1 - (i + 1) = ab - 1 - i := by omega
      rw [he]
    rw [hfun, ih]
    have h1 : x % 256 ^ (ab + 1) = x % 256 ^ ab + 256 ^ ab * (x / 256 ^ ab % 256) := by
      rw [pow_succ]
      exact Nat.mod_mul
    have h2 : ab + 1 - 1 - 0 = ab := by omega
    rw [h2, h1, pow_succ]
    ring

theorem read_make_bigendian (ab x : Nat) (h : x < 256 ^ ab) :
    _read_big_endian (SrecOutput._make_bigendian ab x) = x := by
  unfold _read_big_endian SrecOutput._make_bigendian
  rw [read_make_bigendian_aux ab 0 x]
  simp [Nat.mod_eq_of_lt h]

theorem _make_bigendian_length (ab x : Nat) :
    (SrecOutput._make_bigendian ab x).length = ab := by
  simp [SrecOutput._make_bigendian]

theorem _make_bigendian_lt (ab x : Nat) :
    ∀ b ∈ SrecOutput._make_bigendian ab x, b < 256 := by
  intro b hb
  simp only [SrecOutput._make_bigendian, List.mem_map] at hb
  obtain ⟨i, _, rfl⟩ := hb
  exact Nat.mod_lt _ (by norm_num)

/-! ### Inserting at the top end of the region list -/

theorem takeWhile_all_true {α : Type} (p : α → Bool) (l : List α)
    (h : ∀ x ∈ l, p x = true) : l.takeWhile p = l := by
  have h2 := takeWhile_append_char p l [] h (fun y t hy => by cases hy)
  simpa using h2.1

theorem dropWhile_all_true {α : Type} (p : α → Bool) (l : List α)
    (h : ∀ x ∈ l, p x = true) : l.dropWhile p = [] := by
  have h2 := takeWhile_append_char p l [] h (fun y t hy => by cases hy)
  simpa using h2.2

theorem insertMerge_nil (c : DataChunk) : insertMerge [] c = [c] := rfl

theorem insertMerge_atEnd_merge (l : List DataChunk) (dl : DataChunk) (c : DataChunk)
    (h : ∀ d ∈ l ++ [dl], d.end' ≤ c.start) (hdl : dl.end' = c.start) :
    insertMerge (l ++ [dl]) c = l ++ [⟨dl.base, dl.data ++ c.data⟩] := by
  have htw : (l ++ [dl]).takeWhile (fun d => decide (d.end' ≤ c.start)) = l ++ [dl] :=
    takeWhile_all_true _ _ (fun d hd => decide_eq_true (h d hd))
  have hdw : (l ++ [dl]).dropWhile (fun d => decide (d.end' ≤ c.start)) = [] :=
    dropWhile_all_true _ _ (fun d hd => decide_eq_true (h d hd))
  simp only [insertMerge, htw, hdw, List.getLast?_concat, if_pos hdl,
    List.dropLast_concat]
  simp [mergeHigh]

theorem insertMerge_atEnd_app (l : List DataChunk) (dl : DataChunk) (c : DataChunk)
    (h : ∀ d ∈ l ++ [dl], d.end' ≤ c.start) (hdl : dl.end' ≠ c.start) :
    insertMerge (l ++ [dl]) c = (l ++ [dl]) ++ [c] := by
  have htw : (l ++ [dl]).takeWhile (fun d => decide (d.end' ≤ c.start)) = l ++ [dl] :=
    takeWhile_all_true _ _ (fun d hd => decide_eq_true (h d hd))
  have hdw : (l ++ [dl]).dropWhile (fun d => decide (d.end' ≤ c.start)) = [] :=
    dropWhile_all_true _ _ (fun d hd => decide_eq_true (h d hd))
  simp only [insertMerge, htw, hdw, List.getLast?_concat, if_neg hdl]
  simp [mergeHigh]

theorem start_le_end' (c : DataChunk) : c.start ≤ c.end' := by
  simp only [DataChunk.start, DataChunk.end']
  omega

theorem insertMerge_end_le (l : List DataChunk) (c : DataChunk)
    (h : ∀ d ∈ l, d.end' ≤ c.start) :
    ∀ d ∈ insertMerge l c, d.end' ≤ c.end' := by
  rcases List.eq_nil_or_concat l with rfl | ⟨l₀, dl, hl2⟩
  · rw [insertMerge_nil]
    intro d hd
    rcases List.mem_singleton.mp hd with rfl
    exact le_refl _
  · rw [List.concat_eq_append] at hl2
    subst hl2
    by_cases hdl : dl.end' = c.start
    · rw [insertMerge_atEnd_merge _ _ _ h hdl]
      intro d hd
      rcases List.mem_append.mp hd with hd' | hd'
      · exact le_trans (h d (List.mem_append_left _ hd')) (start_le_end' c)
      · rcases List.mem_singleton.mp hd' with rfl
        simp only [DataChunk.end', DataChunk.start, List.length_append] at hdl ⊢
        omega
    · rw [insertMerge_atEnd_app _ _ _ h hdl]
      intro d hd
      rcases List.mem_append.mp hd with hd' | hd'
      · exact le_trans (h d hd') (start_le_end' c)
      · rcases List.mem_singleton.mp hd' with rfl
        exact le_refl _

theorem insertMerge_insertMerge (l : List DataChunk) (a : Nat) (p q : List Nat)
    (hl : ∀ d ∈ l, d.end' ≤ a) :
    insertMerge (insertMerge l ⟨a, p⟩) ⟨a + p.length, q⟩ = insertMerge l ⟨a, p ++ q⟩ := by
  rcases List.eq_nil_or_concat l with rfl | ⟨l₀, dl, hl2⟩
  · rw [insertMerge_nil, insertMerge_nil]
    have h1 := insertMerge_atEnd_merge [] ⟨a, p⟩ ⟨a + p.length, q⟩
      (by
        intro d hd
        rw [List.nil_append] at hd
        rcases List.mem_singleton.mp hd with rfl
        exact le_refl _)
      rfl
    rw [List.nil_append] at h1
    rw [h1, List.nil_append]
  · rw [List.concat_eq_append] at hl2
    subst hl2
    by_cases hdl : dl.end' = a
    · have hmerge1 : insertMerge (l₀ ++ [dl]) ⟨a, p⟩ =
          l₀ ++ [⟨dl.base, dl.data ++ p⟩] :=
        insertMerge_atEnd_merge l₀ dl ⟨a, p⟩ (fun d hd => hl d hd) hdl
      have hmerge3 : insertMerge (l₀ ++ [dl]) ⟨a, p ++ q⟩ =
          l₀ ++ [⟨dl.base, dl.data ++ (p ++ q)⟩] :=
        insertMerge_atEnd_merge l₀ dl ⟨a, p ++ q⟩ (fun d hd => hl d hd) hdl
      rw [hmerge1, hmerge3]
      have hend : (⟨dl.base, dl.data ++ p⟩ : DataChunk).end' = a + p.length := by
        simp only [DataChunk.end', List.length_append]
        simp only [DataChunk.end'] at hdl
        omega
      have hmerge2 : insertMerge (l₀ ++ [⟨dl.base, dl.data ++ p⟩]) ⟨a + p.length, q⟩ =
          l₀ ++ [⟨dl.base, (dl.data ++ p) ++ q⟩] :=
        insertMerge_atEnd_merge l₀ ⟨dl.base, dl.data ++ p⟩ ⟨a + p.length, q⟩
          (by
            intro d hd
            rcases List.mem_append.mp hd with hd' | hd'
            · exact le_trans (hl d (List.mem_append_left _ hd')) (Nat.le_add_right _ _)
            · rcases List.mem_singleton.mp hd' with rfl
              exact le_of_eq hend)
          hend
      rw [hmerge2, List.append_assoc dl.data p q]
    · have happ1 : insertMerge (l₀ ++ [dl]) ⟨a, p⟩ = (l₀ ++ [dl]) ++ [⟨a, p⟩] :=
        insertMerge_atEnd_app l₀ dl ⟨a, p⟩ (fun d hd => hl d hd) hdl
      have happ3 : insertMerge (l₀ ++ [dl]) ⟨a, p ++ q⟩ = (l₀ ++ [dl]) ++ [⟨a, p ++ q⟩] :=
        insertMerge_atEnd_app l₀ dl ⟨a, p ++ q⟩ (fun d hd => hl d hd) hdl
      rw [happ1, happ3]
      have hmerge2 : insertMerge ((l₀ ++ [dl]) ++ [⟨a, p⟩]) ⟨a + p.length, q⟩ =
          (l₀ ++ [dl]) ++ [⟨a, p ++ q⟩] :=
        insertMerge_atEnd_merge (l₀ ++ [dl]) ⟨a, p⟩ ⟨a + p.length, q⟩
          (by
            intro d hd
            rcases List.mem_append.mp hd with hd' | hd'
            · exact le_trans (hl d hd') (Nat.le_add_right _ _)
            · rcases List.mem_singleton.mp hd' with rfl
              exact le_refl _)
          rfl
      rw [hmerge2]

/-! ### Reading back one S-record data line -/

theorem make_srec_length (d : List Nat) (hb : ∀ b ∈ d, b < 256)
    (hl : d.length + 1 < 256) :
    (SrecOutput._make_srec d).length = 2 * d.length + 4 := by
  unfold SrecOutput._make_srec
  rw [List.length_append, List.length_append, flatten_fmt02X_length d hb,
    fmt02X_byte _ hl, fmt02X_byte _ (complement8_lt _)]
  simp
  omega

theorem drop_append_len0 {α : Type} (xs ys : List α) :
    (xs ++ ys).drop xs.length = ys := by
  simp

theorem hexPairs_flatten (d : List Nat) (hb : ∀ b ∈ d, b < 256) :
    hexPairs ((d.map fmt02X).flatten) = d := by
  have h := hexPairs_flatten_append d hb []
  simpa [hexPairs] using h

theorem parseSrecLine_writer (t : Char)
    (ht : t ∈ (['0', '1', '2', '3', '5', '7', '8', '9'] : List Char))
    (d : List Nat) (hb : ∀ b ∈ d, b < 256) (hne : 1 ≤ d.length)
    (hl : d.length + 1 < 256) :
    parseSrecLine ('S' :: t :: SrecOutput._make_srec d) =
      some ⟨t.toNat - 48, d.length + 1, d, complement8 (d.length + 1 + d.sum)⟩ := by
  have hall : (SrecOutput._make_srec d).all isHexUp = true := by
    rw [List.all_eq_true]
    intro c hc
    obtain ⟨v, hv, rfl⟩ := mem_make_srec d hb hl c hc
    exact isHexUp_hexDigit v hv
  have hlen := make_srec_length d hb hl
  have hlen5 : 5 ≤ (SrecOutput._make_srec d).length := by omega
  have h2 : (fmt02X (d.length + 1)).length = 2 := by rw [fmt02X_byte _ hl]; rfl
  have h2L : ((d.map fmt02X).flatten).length = 2 * d.length := flatten_fmt02X_length d hb
  have hsplit : SrecOutput._make_srec d =
      fmt02X (d.length + 1) ++ ((d.map fmt02X).flatten ++
        fmt02X (complement8 (d.length + 1 + d.sum))) := by
    unfold SrecOutput._make_srec
    rw [List.append_assoc]
  have htake2 : (SrecOutput._make_srec d).take 2 = fmt02X (d.length + 1) := by
    rw [hsplit]
    have h := take_append_len (fmt02X (d.length + 1))
      ((d.map fmt02X).flatten ++ fmt02X (complement8 (d.length + 1 + d.sum)))
    rw [h2] at h
    exact h
  have hdrop2 : (SrecOutput._make_srec d).drop 2 =
      (d.map fmt02X).flatten ++ fmt02X (complement8 (d.length + 1 + d.sum)) := by
    rw [hsplit]
    have h := drop_append_len0 (fmt02X (d.length + 1))
      ((d.map fmt02X).flatten ++ fmt02X (complement8 (d.length + 1 + d.sum)))
    rw [h2] at h
    exact h
  have hdata : ((SrecOutput._make_srec d).drop 2).take
      ((SrecOutput._make_srec d).length - 4) = (d.map fmt02X).flatten := by
    rw [hdrop2, hlen]
    have h := take_append_len ((d.map fmt02X).flatten)
      (fmt02X (complement8 (d.length + 1 + d.sum)))
    rw [h2L] at h
    have harith : 2 * d.length + 4 - 4 = 2 * d.length := by omega
    rw [harith]
    exact h
  have hcksum : (SrecOutput._make_srec d).drop
      ((SrecOutput._make_srec d).length - 2) =
      fmt02X (complement8 (d.length + 1 + d.sum)) := by
    have hsplit2 : SrecOutput._make_srec d =
        (fmt02X (d.length + 1) ++ (d.map fmt02X).flatten) ++
          fmt02X (complement8 (d.length + 1 + d.sum)) := by
      unfold SrecOutput._make_srec
      rfl
    rw [hlen]
    have harith : 2 * d.length + 4 - 2 = 2 * d.length + 2 := by omega
    rw [harith, hsplit2]
    have hfl : (fmt02X (d.length + 1) ++ (d.map fmt02X).flatten).length =
        2 * d.length + 2 := by
      rw [List.length_append, h2, h2L]; omega
    have h := drop_append_len0 (fmt02X (d.length + 1) ++ (d.map fmt02X).flatten)
      (fmt02X (complement8 (d.length + 1 + d.sum)))
    rw [hfl] at h
    exact h
  simp only [parseSrecLine]
  rw [if_pos ⟨ht, hall, hlen5⟩, htake2, hdata, hcksum,
    hexListVal_fmt02X _ hl, hexListVal_fmt02X _ (complement8_lt _),
    hexPairs_flatten d hb]

theorem srecLine_clean (t : Char) (htu : pyUpper t = t) (hts : isPySpace t = false)
    (d : List Nat) (hb : ∀ b ∈ d, b < 256) (hl : d.length + 1 < 256) :
    pyStrip (('S' :: t :: SrecOutput._make_srec d).map pyUpper) =
      'S' :: t :: SrecOutput._make_srec d := by
  have hid : ('S' :: t :: SrecOutput._make_srec d).map pyUpper =
      'S' :: t :: SrecOutput._make_srec d := by
    apply map_id_of_mem
    intro c hc
    rcases List.mem_cons.mp hc with rfl | hc'
    · decide
    · rcases List.mem_cons.mp hc' with rfl | hc''
      · exact htu
      · obtain ⟨v, hv, rfl⟩ := mem_make_srec d hb hl c hc''
        exact pyUpper_hexDigit v hv
  rw [hid]
  apply pyStrip_id
  intro c hc
  rcases List.mem_cons.mp hc with rfl | hc'
  · decide
  · rcases List.mem_cons.mp hc' with rfl | hc''
    · exact hts
    · obtain ⟨v, hv, rfl⟩ := mem_make_srec d hb hl c hc''
      exact isPySpace_hexDigit v hv

theorem processLine_srec_data (ab : Nat) (hab : ab = 2 ∨ ab = 3 ∨ ab = 4)
    (addr : Nat) (haddr : addr < 256 ^ ab) (piece : List Nat)
    (hpb : ∀ b ∈ piece, b < 256) (hlen : ab + piece.length + 1 < 256)
    (st : SrecState) (ln : Nat) (sd' : SparseData)
    (hadd : SparseData.addone ⟨true, st._data⟩ ⟨addr, piece⟩ = .ok sd') :
    processLine defaultSrecFlags st ln
      ('S' :: Char.ofNat (48 + (ab - 1)) ::
        SrecOutput._make_srec (SrecOutput._make_bigendian ab addr ++ piece)) =
      .ok ⟨sd'._data, st._header, st._startAddress, st.record_count + 1⟩ := by
  have htmem : Char.ofNat (48 + (ab - 1)) ∈
      (['0', '1', '2', '3', '5', '7', '8', '9'] : List Char) := by
    rcases hab with rfl | rfl | rfl <;> decide
  have htu : pyUpper (Char.ofNat (48 + (ab - 1))) = Char.ofNat (48 + (ab - 1)) := by
    rcases hab with rfl | rfl | rfl <;> decide
  have hts : isPySpace (Char.ofNat (48 + (ab - 1))) = false := by
    rcases hab with rfl | rfl | rfl <;> decide
  have hS : (Char.ofNat (48 + (ab - 1))).toNat - 48 = ab - 1 := by
    rcases hab with rfl | rfl | rfl <;> decide
  have hpayb : ∀ b ∈ SrecOutput._make_bigendian ab addr ++ piece, b < 256 := by
    intro b hbmem
    rcases List.mem_append.mp hbmem with h' | h'
    · exact _make_bigendian_lt ab addr b h'
    · exact hpb b h'
  have hpayl : (SrecOutput._make_bigendian ab addr ++ piece).length =
      ab + piece.length := by
    rw [List.length_append, _make_bigendian_length]
  have hpayne : 1 ≤ (SrecOutput._make_bigendian ab addr ++ piece).length := by
    rw [hpayl]; omega
  have hpayl256 : (SrecOutput._make_bigendian ab addr ++ piece).length + 1 < 256 := by
    rw [hpayl]; omega
  have hclean := srecLine_clean (Char.ofNat (48 + (ab - 1))) htu hts _ hpayb hpayl256
  have hparse := parseSrecLine_writer _ htmem _ hpayb hpayne hpayl256
  have hvr : validateRecord defaultSrecFlags ln
      ⟨ab - 1,
        (SrecOutput._make_bigendian ab addr ++ piece).length + 1,
        SrecOutput._make_bigendian ab addr ++ piece,
        complement8 ((SrecOutput._make_bigendian ab addr ++ piece).length + 1 +
          (SrecOutput._make_bigendian ab addr ++ piece).sum)⟩ = none := by
    unfold validateRecord
    rw [if_neg, if_neg]
    · intro hcontra
      exact hcontra.2 rfl
    · intro hcontra
      have h := hcontra.2
      push_cast at h
      omega
  simp only [processLine, hclean, hparse, hS, processRecord, hvr]
  rw [if_neg (by omega : ¬(ab - 1 = 0)),
    if_pos (by omega : ab - 1 = 1 ∨ ab - 1 = 2 ∨ ab - 1 = 3)]
  have hab1 : ab - 1 + 1 = ab := by omega
  simp only [hab1]
  have htake : (SrecOutput._make_bigendian ab addr ++ piece).take ab =
      SrecOutput._make_bigendian ab addr := by
    have h := take_append_len (SrecOutput._make_bigendian ab addr) piece
    rw [_make_bigendian_length] at h
    exact h
  have hdrop : (SrecOutput._make_bigendian ab addr ++ piece).drop ab = piece := by
    have h := drop_append_len0 (SrecOutput._make_bigendian ab addr) piece
    rw [_make_bigendian_length] at h
    exact h
  rw [htake, hdrop, read_make_bigendian ab addr haddr, hadd]

/-! ### Reading back a whole S-record file -/

theorem readLines_append_ok (fl : SrecFlags) :
    ∀ (xs : List (List Char)) (st : SrecState) (ln : Nat) (st' : SrecState)
      (ys : List (List Char)),
    readLines fl st ln xs = .ok st' →
    readLines fl st ln (xs ++ ys) = readLines fl st' (ln + xs.length) ys := by
  intro xs
  induction xs with
  | nil =>
    intro st ln st' ys h
    simp only [readLines] at h
    cases h
    simp [readLines]
  | cons x xs ih =>
    intro st ln st' ys h
    simp only [readLines, List.cons_append, List.append_eq] at h ⊢
    cases hp : processLine fl st ln x with
    | error e => simp [hp] at h
    | ok st1 =>
      simp only [hp] at h ⊢
      rw [ih st1 (ln + 1) st' ys h]
      have harith : ln + (x :: xs).length = ln + 1 + xs.length := by
        simp only [List.length_cons]; omega
      rw [harith]

theorem insertMerge_strictBelow (l : List DataChunk) (c : DataChunk)
    (h : ∀ d ∈ l, d.end' < c.start) :
    insertMerge l ⟨c.start, c.data⟩ = l ++ [c] := by
  rcases List.eq_nil_or_concat l with rfl | ⟨l₀, dl, hl2⟩
  · rw [insertMerge_nil]
    rfl
  · rw [List.concat_eq_append] at hl2
    subst hl2
    have happ := insertMerge_atEnd_app l₀ dl ⟨c.start, c.data⟩
      (fun d hd => le_of_lt (h d hd))
      (Nat.ne_of_lt (h dl (List.mem_append_right _ (List.mem_singleton_self dl))))
    rw [happ]
    rfl

theorem chunkDataLines_nil (stype : Char) (ab bpl fuel addr : Nat) :
    SrecOutput.chunkDataLines stype ab bpl fuel addr [] = [] := by
  cases fuel with
  | zero => rfl
  | succ fuel => simp [SrecOutput.chunkDataLines]

theorem readLines_chunkDataLines (ab bpl : Nat) (hab : ab = 2 ∨ ab = 3 ∨ ab = 4)
    (hbpl : 0 < bpl) (hsize : ab + bpl + 1 < 256) :
    ∀ (fuel : Nat) (data : List Nat) (addr : Nat) (st : SrecState) (ln : Nat),
    data ≠ [] →
    data.length ≤ fuel →
    (∀ b ∈ data, b < 256) →
    addr + data.length ≤ 256 ^ ab →
    SInv st._data →
    (∀ d ∈ st._data, d.end' ≤ addr) →
    ∃ n, readLines defaultSrecFlags st ln
        (SrecOutput.chunkDataLines (Char.ofNat (48 + (ab - 1))) ab bpl fuel addr data) =
      .ok ⟨insertMerge st._data ⟨addr, data⟩, st._header, st._startAddress,
        st.record_count + n⟩ := by
  intro fuel
  induction fuel with
  | zero =>
    intro data addr st ln hne hfuel _ _ _ _
    exact absurd (List.length_eq_zero.mp (by omega)) hne
  | succ fuel ih =>
    intro data addr st ln hne hfuel hbytes hfit hinv hbelow
    have hguard : ¬(data = [] ∨ bpl = 0) := by
      rintro (h | h)
      · exact hne h
      · omega
    rw [SrecOutput.chunkDataLines, if_neg hguard]
    have htlen : (data.take bpl).length = min bpl data.length := List.length_take bpl data
    have hdlen : (data.drop bpl).length = data.length - bpl := List.length_drop bpl data
    have hdpos : 0 < data.length := List.length_pos.mpr hne
    have htpos : 0 < (data.take bpl).length := by rw [htlen]; omega
    have haddr : addr < 256 ^ ab := by omega
    have htb : ∀ b ∈ data.take bpl, b < 256 :=
      fun b hb => hbytes b (List.take_subset bpl data hb)
    have hlenline : ab + (data.take bpl).length + 1 < 256 := by
      rw [htlen]; omega
    have hno : ∀ d ∈ st._data, d.end' ≤ (⟨addr, data.take bpl⟩ : DataChunk).start ∨
        (⟨addr, data.take bpl⟩ : DataChunk).end' ≤ d.start :=
      fun d hd => Or.inl (hbelow d hd)
    have hadd : SparseData.addone ⟨true, st._data⟩ ⟨addr, data.take bpl⟩ =
        .ok ⟨true, insertMerge st._data ⟨addr, data.take bpl⟩⟩ :=
      addone_insertMerge true st._data ⟨addr, data.take bpl⟩ hinv htpos hno
    have hline := processLine_srec_data ab hab addr haddr (data.take bpl) htb
      hlenline st ln ⟨true, insertMerge st._data ⟨addr, data.take bpl⟩⟩ hadd
    simp only [readLines, hline]
    by_cases hdrop : data.drop bpl = []
    · have htake_all : data.take bpl = data := by
        have h := List.take_append_drop bpl data
        rw [hdrop, List.append_nil] at h
        exact h
      rw [hdrop, chunkDataLines_nil]
      refine ⟨1, ?_⟩
      simp only [readLines, htake_all]
    · have hbpl_lt : bpl < data.length := by
        by_contra hcon
        exact hdrop (List.drop_eq_nil_of_le (by omega))
      have hmin : min bpl data.length = bpl := by omega
      obtain ⟨hsinv1, _⟩ := insertMerge_props st._data ⟨addr, data.take bpl⟩ hinv htpos hno
      have hends1 : ∀ d ∈ insertMerge st._data ⟨addr, data.take bpl⟩,
          d.end' ≤ addr + (data.take bpl).length :=
        insertMerge_end_le st._data ⟨addr, data.take bpl⟩ hbelow
      obtain ⟨n', hn'⟩ := ih (data.drop bpl) (addr + (data.take bpl).length)
        ⟨insertMerge st._data ⟨addr, data.take bpl⟩, st._header, st._startAddress,
          st.record_count + 1⟩ (ln + 1) hdrop
        (by rw [hdlen]; omega)
        (fun b hb => hbytes b (List.drop_subset bpl data hb))
        (by rw [hdlen, htlen]; omega)
        hsinv1 hends1
      rw [hn']
      refine ⟨n' + 1, ?_⟩
      have hcomp : insertMerge (insertMerge st._data ⟨addr, data.take bpl⟩)
          ⟨addr + (data.take bpl).length, data.drop bpl⟩ =
          insertMerge st._data ⟨addr, data⟩ := by
        have h := insertMerge_insertMerge st._data addr (data.take bpl) (data.drop bpl)
          hbelow
        rw [List.take_append_drop] at h
        exact h
      rw [hcomp]
      have harith : st.record_count + 1 + n' = st.record_count + (n' + 1) := by omega
      rw [harith]

theorem readLines_srec_chunks (ab bpl : Nat) (hab : ab = 2 ∨ ab = 3 ∨ ab = 4)
    (hbpl : 0 < bpl) (hsize : ab + bpl + 1 < 256) :
    ∀ (chunks l : List DataChunk) (st : SrecState) (ln : Nat),
    st._data = l →
    SInv (l ++ chunks) →
    (∀ c ∈ chunks, ∀ b ∈ c.data, b < 256) →
    (∀ c ∈ chunks, c.end' ≤ 256 ^ ab) →
    ∃ n, readLines defaultSrecFlags st ln
        ((chunks.map (fun c => SrecOutput.chunkDataLines (Char.ofNat (48 + (ab - 1)))
          ab bpl c.data.length c.start c.data)).flatten) =
      .ok ⟨l ++ chunks, st._header, st._startAddress, st.record_count + n⟩ := by
  intro chunks
  induction chunks with
  | nil =>
    intro l st ln hst hinv _ _
    refine ⟨0, ?_⟩
    simp only [List.map_nil, List.flatten_nil, readLines, List.append_nil]
    rw [← hst]
    rfl
  | cons c rest ih =>
    intro l st ln hst hinv hbytes hfit
    have hinvr : SInv (c :: rest) := @SInv_append_right l _ hinv
    have hcne : c.data ≠ [] := by
      intro hcon
      have h := hinvr.1
      rw [hcon] at h
      exact absurd h (by simp)
    have hbelow : ∀ d ∈ l, d.end' < c.start := by
      intro d hd
      exact SInv_rel hinv d hd c (List.mem_cons_self c rest)
    have hcend : c.start + c.data.length = c.end' := by
      simp only [DataChunk.start, DataChunk.end']
    obtain ⟨n1, hn1⟩ := readLines_chunkDataLines ab bpl hab hbpl hsize
      c.data.length c.data c.start st ln hcne (le_refl _)
      (hbytes c (List.mem_cons_self c rest))
      (by rw [hcend]; exact hfit c (List.mem_cons_self c rest))
      (by rw [hst]; exact SInv_append_left hinv)
      (by rw [hst]; intro d hd; exact le_of_lt (hbelow d hd))
    rw [hst, insertMerge_strictBelow l c hbelow] at hn1
    have happend := readLines_append_ok defaultSrecFlags
      (SrecOutput.chunkDataLines (Char.ofNat (48 + (ab - 1))) ab bpl
        c.data.length c.start c.data)
      st ln ⟨l ++ [c], st._header, st._startAddress, st.record_count + n1⟩
      ((rest.map (fun c => SrecOutput.chunkDataLines (Char.ofNat (48 + (ab - 1)))
        ab bpl c.data.length c.start c.data)).flatten) hn1
    obtain ⟨n2, hn2⟩ := ih (l ++ [c])
      ⟨l ++ [c], st._header, st._startAddress, st.record_count + n1⟩
      (ln + (SrecOutput.chunkDataLines (Char.ofNat (48 + (ab - 1))) ab bpl
        c.data.length c.start c.data).length)
      rfl
      (by
        have hassoc : (l ++ [c]) ++ rest = l ++ c :: rest := by simp
        rw [hassoc]
        exact hinv)
      (fun c' hc' => hbytes c' (List.mem_cons_of_mem c hc'))
      (fun c' hc' => hfit c' (List.mem_cons_of_mem c hc'))
    refine ⟨n1 + n2, ?_⟩
    simp only [List.map_cons, List.flatten_cons]
    rw [happend, hn2]
    have hassoc : (l ++ [c]) ++ rest = l ++ c :: rest := by simp
    rw [hassoc]
    have harith : st.record_count + n1 + n2 = st.record_count + (n1 + n2) := by omega
    rw [harith]

theorem srec_write_lines (ab bpl : Nat) (hab : ab = 2 ∨ ab = 3 ∨ ab = 4)
    (sd : SparseData) (hne : sd._data ≠ [])
    (hfit : ∀ c ∈ sd._data, c.end' ≤ 256 ^ ab) :
    SrecOutput.write ab none none bpl sd =
      .ok ((sd._data.map (fun c => SrecOutput.chunkDataLines (Char.ofNat (48 + (ab - 1)))
        ab bpl c.data.length c.start c.data)).flatten) := by
  have hnn : ¬¬(ab = 2 ∨ ab = 3 ∨ ab = 4) := not_not_intro hab
  obtain ⟨l₀, dl, hl2⟩ : ∃ l₀ dl, sd._data = l₀ ++ [dl] := by
    rcases List.eq_nil_or_concat sd._data with h0 | ⟨l₀, dl, hl2⟩
    · exact absurd h0 hne
    · exact ⟨l₀, dl, by rw [hl2, List.concat_eq_append]⟩
  have hend : sd.end? = some dl.end' := by
    unfold SparseData.end?
    rw [hl2, List.getLast?_concat]
  have hfitdl : ¬(256 ^ ab < dl.end') := by
    push_neg
    exact hfit dl (by rw [hl2]; exact List.mem_append_right _ (List.mem_singleton_self dl))
  simp only [SrecOutput.write, if_neg hnn, hend, if_neg hfitdl]
  simp only [List.nil_append, List.append_nil]

/-! ### Reading back an Intel HEX file: text plumbing -/

theorem filter_joinLinesNl (lines : List (List Char))
    (h : ∀ l ∈ lines, ∀ c ∈ l, isPySpace c = false) :
    (joinLinesNl lines).filter (fun c => !(isPySpace c)) = lines.flatten := by
  induction lines with
  | nil => rfl
  | cons l ls ih =>
    simp only [joinLinesNl, List.map_cons, List.flatten_cons, List.filter_append]
    have h1 : l.filter (fun c => !(isPySpace c)) = l :=
      filter_all_true _ l (fun c hc => by
        rw [h l (List.mem_cons_self l ls) c hc]; rfl)
    have h2 : (['\n'] : List Char).filter (fun c => !(isPySpace c)) = [] := by decide
    rw [h1, h2, List.append_nil]
    have ih' := ih (fun l' hl' => h l' (List.mem_cons_of_mem l hl'))
    simp only [joinLinesNl] at ih'
    rw [ih']

theorem splitOnChar_append_no_sep (sep : Char) :
    ∀ (b : List Char), sep ∉ b → ∀ (xs g : List Char) (gs : List (List Char)),
    splitOnChar sep xs = g :: gs →
    splitOnChar sep (b ++ xs) = (b ++ g) :: gs
  | [], _, xs, g, gs, h => by simpa using h
  | c :: b, hb, xs, g, gs, h => by
    have hc : ¬(c = sep) := fun hcc => hb (hcc ▸ List.mem_cons_self c b)
    have ih := splitOnChar_append_no_sep sep b
      (fun hm => hb (List.mem_cons_of_mem c hm)) xs g gs h
    simp [splitOnChar, hc, ih]

theorem splitOnChar_flatten (sep : Char) :
    ∀ (lines : List (List Char)),
    (∀ l ∈ lines, ∃ b, l = sep :: b ∧ sep ∉ b) →
    splitOnChar sep lines.flatten = [] :: lines.map List.tail := by
  intro lines
  induction lines with
  | nil => intro _; rfl
  | cons l ls ih =>
    intro h
    obtain ⟨b, rfl, hb⟩ := h l (List.mem_cons_self l ls)
    have ih' := ih (fun l' hl' => h l' (List.mem_cons_of_mem _ hl'))
    simp only [List.flatten_cons, List.cons_append, List.map_cons, List.tail_cons]
    have hsplit : splitOnChar sep (sep :: (b ++ ls.flatten)) =
        [] :: splitOnChar sep (b ++ ls.flatten) := by
      simp [splitOnChar]
    rw [hsplit, splitOnChar_append_no_sep sep b hb ls.flatten [] (ls.map List.tail) ih',
      List.append_nil]

/-! ### Reading back one Intel HEX record -/

theorem fromHex_make_record_body (record : List Nat) (hb : ∀ x ∈ record, x < 256) :
    fromHex? ((record.map fmt02X).flatten ++ fmt02X (HexOutput.negsum8 record.sum)) =
      some (record ++ [HexOutput.negsum8 record.sum]) := by
  have hall : ((record.map fmt02X).flatten ++
      fmt02X (HexOutput.negsum8 record.sum)).all isHexAny = true := by
    rw [List.all_eq_true]
    intro c hc
    rcases List.mem_append.mp hc with hc' | hc'
    · obtain ⟨v, hv, rfl⟩ := mem_flatten_fmt02X record hb c hc'
      exact isHexAny_hexDigit v hv
    · obtain ⟨v, hv, rfl⟩ := mem_fmt02X _ (negsum8_lt _) c hc'
      exact isHexAny_hexDigit v hv
  have heven : ((record.map fmt02X).flatten ++
      fmt02X (HexOutput.negsum8 record.sum)).length % 2 = 0 := by
    rw [List.length_append, flatten_fmt02X_length record hb,
      fmt02X_byte _ (negsum8_lt _)]
    simp only [List.length_cons, List.length_nil]
    omega
  unfold fromHex?
  rw [if_pos ⟨hall, heven⟩,
    hexPairsAny_flatten_append record hb]
  have h2 := hexPairsAny_fmt02X (HexOutput.negsum8 record.sum) (negsum8_lt _) []
  rw [List.append_nil] at h2
  rw [h2]
  simp [hexPairsAny]

theorem _make_record_tail (address type_ : Nat) (data : List Nat) :
    List.tail (HexOutput._make_record address type_ data) =
      (([data.length, address / 256, address % 256, type_] ++ data).map fmt02X).flatten ++
        fmt02X (HexOutput.negsum8
          ([data.length, address / 256, address % 256, type_] ++ data).sum) := rfl

theorem hexRecord_bytes (address type_ : Nat) (ha : address < 65536)
    (ht : type_ < 256) (data : List Nat) (hlen : data.length < 256)
    (hb : ∀ x ∈ data, x < 256) :
    ∀ x ∈ [data.length, address / 256, address % 256, type_] ++ data, x < 256 := by
  intro x hx
  rcases List.mem_append.mp hx with hx' | hx'
  · rcases List.mem_cons.mp hx' with rfl | hx2
    · exact hlen
    · rcases List.mem_cons.mp hx2 with rfl | hx3
      · omega
      · rcases List.mem_cons.mp hx3 with rfl | hx4
        · exact Nat.mod_lt _ (by norm_num)
        · rcases List.mem_cons.mp hx4 with rfl | hx5
          · exact ht
          · cases hx5
  · exact hb x hx'

theorem processHexRecord_data (st : HexInput.HexState) (heof : st._eof = false)
    (address : Nat) (ha : address < 65536) (data : List Nat)
    (hlen : data.length < 256) (hb : ∀ x ∈ data, x < 256)
    (sd' : SparseData)
    (hadd : SparseData.addone ⟨true, st._data⟩ ⟨st._baseaddr + address, data⟩ =
      .ok sd') :
    HexInput.processHexRecord HexInput.defaultHexFlags st
        (List.tail (HexOutput._make_record address 0 data)) =
      .ok ⟨sd'._data, st._baseaddr, st._eof, st.startcs, st.startpc⟩ := by
  have hrb := hexRecord_bytes address 0 ha (by norm_num) data hlen hb
  have hfh := fromHex_make_record_body _ hrb
  rw [_make_record_tail]
  have hbody_ne : (([data.length, address / 256, address % 256, 0] ++ data).map
      fmt02X).flatten ++ fmt02X (HexOutput.negsum8
        ([data.length, address / 256, address % 256, 0] ++ data).sum) ≠ [] := by
    intro hcon
    have hlencon := congrArg List.length hcon
    rw [List.length_append, flatten_fmt02X_length _ hrb,
      fmt02X_byte _ (negsum8_lt _)] at hlencon
    simp at hlencon
  have hshape : ([data.length, address / 256, address % 256, 0] ++ data) ++
      [HexOutput.negsum8 ([data.length, address / 256, address % 256, 0] ++ data).sum] =
      data.length :: address / 256 :: address % 256 :: 0 ::
        (data ++ [HexOutput.negsum8
          ([data.length, address / 256, address % 256, 0] ++ data).sum]) := by
    simp
  unfold HexInput.processHexRecord
  rw [if_neg hbody_ne, if_neg (by simp [HexInput.defaultHexFlags, heof])]
  simp only [hfh, hshape]
  rw [if_neg (by
    simp only [List.length_cons, List.length_append, List.length_nil]
    omega)]
  simp only [List.getD_cons_zero, List.getD_cons_succ, List.drop_succ_cons,
    List.drop_zero, List.dropLast_concat]
  have hck : ¬(HexInput.defaultHexFlags.force_good_checksum = true ∧
      (data.length :: address / 256 :: address % 256 :: 0 ::
        (data ++ [HexOutput.negsum8
          ([data.length, address / 256, address % 256, 0] ++ data).sum])).sum % 256 ≠ 0) := by
    intro hcon
    apply hcon.2
    simp only [List.sum_cons, List.sum_append, HexOutput.negsum8]
    simp
    omega
  rw [if_neg hck, if_neg (by intro hcon; exact hcon.2 rfl)]
  simp only [if_true]
  have haeq : address / 256 * 256 + address % 256 = address := by omega
  rw [haeq, hadd]

theorem processHexRecord_type4 (st : HexInput.HexState) (heof : st._eof = false)
    (h : Nat) (hh : h < 65536) :
    HexInput.processHexRecord HexInput.defaultHexFlags st
        (List.tail (HexOutput._make_record 0 4 [h / 256, h % 256])) =
      .ok ⟨st._data, h * 65536, st._eof, st.startcs, st.startpc⟩ := by
  have hrb := hexRecord_bytes 0 4 (by norm_num) (by norm_num) [h / 256, h % 256]
    (by norm_num) (by
      intro x hx
      rcases List.mem_cons.mp hx with rfl | hx2
      · omega
      · rcases List.mem_cons.mp hx2 with rfl | hx3
        · exact Nat.mod_lt _ (by norm_num)
        · cases hx3)
  have hfh := fromHex_make_record_body _ hrb
  rw [_make_record_tail]
  have hbody_ne : (([([h / 256, h % 256] : List Nat).length, 0 / 256, 0 % 256, 4] ++
      [h / 256, h % 256]).map fmt02X).flatten ++
      fmt02X (HexOutput.negsum8 (([([h / 256, h % 256] : List Nat).length, 0 / 256,
        0 % 256, 4] ++ [h / 256, h % 256]).sum)) ≠ [] := by
    intro hcon
    have hlencon := congrArg List.length hcon
    rw [List.length_append, flatten_fmt02X_length _ hrb,
      fmt02X_byte _ (negsum8_lt _)] at hlencon
    simp at hlencon
  have hshape : (([([h / 256, h % 256] : List Nat).length, 0 / 256, 0 % 256, 4] ++
      [h / 256, h % 256]) ++ [HexOutput.negsum8 (([([h / 256, h % 256] : List Nat).length,
        0 / 256, 0 % 256, 4] ++ [h / 256, h % 256]).sum)]) =
      2 :: 0 :: 0 :: 4 :: (h / 256 :: h % 256 ::
        [HexOutput.negsum8 ((([2, 0, 0, 4] : List Nat) ++ [h / 256, h % 256]).sum)]) := by
    simp
  unfold HexInput.processHexRecord
  rw [if_neg hbody_ne, if_neg (by simp [HexInput.defaultHexFlags, heof])]
  simp only [hfh, hshape]
  rw [if_neg (by
    simp only [List.length_cons, List.length_nil]
    omega)]
  simp only [List.getD_cons_zero, List.getD_cons_succ, List.drop_succ_cons,
    List.drop_zero]
  have hdrop : List.dropLast (h / 256 :: h % 256 ::
      [HexOutput.negsum8 ((([2, 0, 0, 4] : List Nat) ++ [h / 256, h % 256]).sum)]) =
      [h / 256, h % 256] := by
    simp
  rw [hdrop]
  have hck : ¬(HexInput.defaultHexFlags.force_good_checksum = true ∧
      (2 :: 0 :: 0 :: 4 :: (h / 256 :: h % 256 ::
        [HexOutput.negsum8 ((([2, 0, 0, 4] : List Nat) ++ [h / 256, h % 256]).sum)])).sum
        % 256 ≠ 0) := by
    intro hcon
    apply hcon.2
    simp only [List.sum_cons, List.sum_append, HexOutput.negsum8]
    simp
    omega
  rw [if_neg hck, if_neg (by intro hcon; exact hcon.2 (by simp))]
  rw [if_neg (by norm_num), if_neg (by norm_num), if_neg (by norm_num),
    if_neg (by norm_num)]
  simp only [if_true]
  rw [if_neg (by intro hcon; exact hcon rfl)]
  simp only [List.getD_cons_zero, List.getD_cons_succ]
  have harith : h / 256 * 16777216 + h % 256 * 65536 = h * 65536 := by omega
  rw [harith]

theorem processHexRecord_eof (st : HexInput.HexState) (heof : st._eof = false) :
    HexInput.processHexRecord HexInput.defaultHexFlags st
        (List.tail (HexOutput._make_record 0 1 [])) =
      .ok ⟨st._data, st._baseaddr, true, st.startcs, st.startpc⟩ := by
  simp only [HexInput.processHexRecord, heof]
  rfl

theorem getLast?_cons_is_some {α : Type} (a : α) :
    ∀ (l : List α), ∃ x, (a :: l).getLast? = some x
  | [] => ⟨a, rfl⟩
  | b :: t => by
    obtain ⟨x, hx⟩ := getLast?_cons_is_some b t
    exact ⟨x, by rw [List.getLast?_cons_cons, hx]⟩

theorem highAfter_cons (high : Option Nat) (p : Nat × Nat × List Nat)
    (xs : List (Nat × Nat × List Nat)) :
    highAfter high (p :: xs) = highAfter (some p.1) xs := by
  cases xs with
  | nil => rfl
  | cons q qs =>
    obtain ⟨x, hx⟩ := getLast?_cons_is_some q qs
    simp [highAfter, List.getLast?_cons_cons, hx]

theorem hexDataLines_append :
    ∀ (xs ys : List (Nat × Nat × List Nat)) (high : Option Nat),
    HexOutput.hexDataLines high (xs ++ ys) =
      HexOutput.hexDataLines high xs ++
        HexOutput.hexDataLines (highAfter high xs) ys := by
  intro xs
  induction xs with
  | nil =>
    intro ys high
    simp [HexOutput.hexDataLines, highAfter]
  | cons p xs ih =>
    intro ys high
    obtain ⟨h, addr, data⟩ := p
    rw [highAfter_cons]
    simp only [List.cons_append, HexOutput.hexDataLines, List.append_eq]
    by_cases hc : some h ≠ high
    · rw [if_pos hc, if_pos hc, ih]
      simp
    · rw [if_neg hc, if_neg hc, ih]
      simp

/-! ### Reading back the records of one chunk of an Intel HEX file -/

theorem chunkyLoop_succ (bpl : Nat) (dc : DataChunk) (fuel end0 : Nat)
    (hlt : end0 < dc.end') :
    HexOutput.chunkyLoop bpl dc (fuel + 1) end0 =
      (end0 / 65536, end0 % 65536,
        (dc.data.drop (end0 - dc.start)).take
          ((if min dc.end' (end0 + bpl) / 65536 ≠ end0 / 65536 then
            (end0 / 65536 + 1) * 65536 else min dc.end' (end0 + bpl)) - end0)) ::
      HexOutput.chunkyLoop bpl dc fuel
        (if min dc.end' (end0 + bpl) / 65536 ≠ end0 / 65536 then
          (end0 / 65536 + 1) * 65536 else min dc.end' (end0 + bpl)) := by
  simp only [HexOutput.chunkyLoop, if_pos hlt]

theorem readHex_chunkyLoop (bpl : Nat) (hbpl : 0 < bpl) (hbpl255 : bpl ≤ 255)
    (dc : DataChunk) (hdb : ∀ x ∈ dc.data, x < 256) (hfit : dc.end' ≤ 2 ^ 32) :
    ∀ (fuel end0 : Nat) (high : Option Nat) (st : HexInput.HexState)
      (more : List (List Char)),
    dc.start ≤ end0 →
    dc.end' - end0 ≤ fuel →
    st._eof = false →
    SInv st._data →
    (∀ d ∈ st._data, d.end' ≤ end0) →
    (∀ h, high = some h → st._baseaddr = h * 65536) →
    ∃ st' : HexInput.HexState,
      HexInput.readHexRecords HexInput.defaultHexFlags st
          ((HexOutput.hexDataLines high (HexOutput.chunkyLoop bpl dc fuel end0)).map
            List.tail ++ more) =
        HexInput.readHexRecords HexInput.defaultHexFlags st' more ∧
      st'._data = (if end0 < dc.end' then
          insertMerge st._data ⟨end0, dc.data.drop (end0 - dc.start)⟩
        else st._data) ∧
      st'._eof = false ∧ st'.startcs = st.startcs ∧ st'.startpc = st.startpc ∧
      (∀ h, highAfter high (HexOutput.chunkyLoop bpl dc fuel end0) = some h →
        st'._baseaddr = h * 65536) := by
  intro fuel
  induction fuel with
  | zero =>
    intro end0 high st more h1 h2 h3 h4 h5 h6
    refine ⟨st, rfl, ?_, h3, rfl, rfl, ?_⟩
    · rw [if_neg (by omega)]
    · intro h hh
      exact h6 h hh
  | succ fuel ih =>
    intro end0 high st more h1 h2 h3 h4 h5 h6
    by_cases hlt : end0 < dc.end'
    case neg =>
      have hnil : HexOutput.chunkyLoop bpl dc (fuel + 1) end0 = [] := by
        simp only [HexOutput.chunkyLoop, if_neg hlt]
      refine ⟨st, ?_, ?_, h3, rfl, rfl, ?_⟩
      · rw [hnil]
        rfl
      · rw [if_neg hlt]
      · intro h hh
        rw [hnil] at hh
        exact h6 h hh
    case pos =>
      have h32 : (2 : Nat) ^ 32 = 4294967296 := by norm_num
      have hdlen : dc.data.length = dc.end' - dc.start := by
        simp only [DataChunk.end', DataChunk.start]
        omega
      have hend1_gt : end0 < min dc.end' (end0 + bpl) := lt_min hlt (by omega)
      have hend1_le : min dc.end' (end0 + bpl) ≤ dc.end' := min_le_left _ _
      have hend1_le2 : min dc.end' (end0 + bpl) ≤ end0 + bpl := min_le_right _ _
      have hadj_le : min dc.end' (end0 + bpl) / 65536 ≠ end0 / 65536 →
          (end0 / 65536 + 1) * 65536 ≤ min dc.end' (end0 + bpl) := by
        intro hadj
        have hd1 : end0 / 65536 ≤ min dc.end' (end0 + bpl) / 65536 :=
          Nat.div_le_div_right (le_of_lt hend1_gt)
        have hd2 : min dc.end' (end0 + bpl) / 65536 * 65536 ≤ min dc.end' (end0 + bpl) :=
          Nat.div_mul_le_self _ _
        omega
      have hend2_gt : end0 < (if min dc.end' (end0 + bpl) / 65536 ≠ end0 / 65536 then
          (end0 / 65536 + 1) * 65536 else min dc.end' (end0 + bpl)) := by
        by_cases hadj : min dc.end' (end0 + bpl) / 65536 ≠ end0 / 65536
        · rw [if_pos hadj]
          omega
        · rw [if_neg hadj]
          exact hend1_gt
      have hend2_le : (if min dc.end' (end0 + bpl) / 65536 ≠ end0 / 65536 then
          (end0 / 65536 + 1) * 65536 else min dc.end' (end0 + bpl)) ≤ dc.end' := by
        by_cases hadj : min dc.end' (end0 + bpl) / 65536 ≠ end0 / 65536
        · rw [if_pos hadj]
          have := hadj_le hadj
          omega
        · rw [if_neg hadj]
          exact hend1_le
      have hend2_bpl : (if min dc.end' (end0 + bpl) / 65536 ≠ end0 / 65536 then
          (end0 / 65536 + 1) * 65536 else min dc.end' (end0 + bpl)) - end0 ≤ bpl := by
        by_cases hadj : min dc.end' (end0 + bpl) / 65536 ≠ end0 / 65536
        · rw [if_pos hadj]
          have := hadj_le hadj
          omega
        · rw [if_neg hadj]
          omega
      have hsh_lt : end0 / 65536 < 65536 := by omega
      have hloop := chunkyLoop_succ bpl dc fuel end0 hlt
      obtain ⟨end2, hend2⟩ : ∃ e2, (if min dc.end' (end0 + bpl) / 65536 ≠ end0 / 65536 then
          (end0 / 65536 + 1) * 65536 else min dc.end' (end0 + bpl)) = e2 := ⟨_, rfl⟩
      rw [hend2] at hloop hend2_gt hend2_le hend2_bpl
      have hslice_len : ((dc.data.drop (end0 - dc.start)).take (end2 - end0)).length =
          end2 - end0 := by
        rw [List.length_take, List.length_drop]
        omega
      have hslice_pos : 0 < ((dc.data.drop (end0 - dc.start)).take (end2 - end0)).length := by
        omega
      have hslice_b : ∀ x ∈ (dc.data.drop (end0 - dc.start)).take (end2 - end0), x < 256 :=
        fun x hx => hdb x (List.drop_subset _ _ (List.take_subset _ _ hx))
      have hslice_255 : ((dc.data.drop (end0 - dc.start)).take (end2 - end0)).length <
          256 := by omega
      have haddr2 : end0 / 65536 * 65536 + end0 % 65536 = end0 := by omega
      have haddone : SparseData.addone ⟨true, st._data⟩
          ⟨end0 / 65536 * 65536 + end0 % 65536,
            (dc.data.drop (end0 - dc.start)).take (end2 - end0)⟩ =
          .ok ⟨true, insertMerge st._data
            ⟨end0, (dc.data.drop (end0 - dc.start)).take (end2 - end0)⟩⟩ := by
        rw [haddr2]
        exact addone_insertMerge true st._data _ h4 hslice_pos
          (fun d hd => Or.inl (h5 d hd))
      obtain ⟨hsinv2, _⟩ := insertMerge_props st._data
        ⟨end0, (dc.data.drop (end0 - dc.start)).take (end2 - end0)⟩ h4 hslice_pos
        (fun d hd => Or.inl (h5 d hd))
      have hends2 : ∀ d ∈ insertMerge st._data
          ⟨end0, (dc.data.drop (end0 - dc.start)).take (end2 - end0)⟩,
          d.end' ≤ end2 := by
        intro d hd
        have h := insertMerge_end_le st._data
          ⟨end0, (dc.data.drop (end0 - dc.start)).take (end2 - end0)⟩ h5 d hd
        have h2 : (⟨end0, (dc.data.drop (end0 - dc.start)).take (end2 - end0)⟩ :
            DataChunk).end' =
            end0 + ((dc.data.drop (end0 - dc.start)).take (end2 - end0)).length := rfl
        rw [h2] at h
        omega
      have hdatasuffix : insertMerge st._data
          ⟨end0, (dc.data.drop (end0 - dc.start)).take (end2 - end0)⟩ =
          (if end2 < dc.end' then
            insertMerge st._data ⟨end0, (dc.data.drop (end0 - dc.start)).take (end2 - end0)⟩
          else insertMerge st._data ⟨end0, dc.data.drop (end0 - dc.start)⟩) := by
        by_cases hlt2 : end2 < dc.end'
        · rw [if_pos hlt2]
        · rw [if_neg hlt2]
          have hnil : (dc.data.drop (end0 - dc.start)).drop (end2 - end0) = [] := by
            apply List.drop_eq_nil_of_le
            rw [List.length_drop]
            omega
          have htad := List.take_append_drop (end2 - end0) (dc.data.drop (end0 - dc.start))
          rw [hnil, List.append_nil] at htad
          rw [htad]
      have hcompose : ∀ st2data,
          st2data = insertMerge st._data
            ⟨end0, (dc.data.drop (end0 - dc.start)).take (end2 - end0)⟩ →
          (if end2 < dc.end' then
            insertMerge st2data ⟨end2, dc.data.drop (end2 - dc.start)⟩
          else st2data) =
          insertMerge st._data ⟨end0, dc.data.drop (end0 - dc.start)⟩ := by
        intro st2data hst2
        subst hst2
        by_cases hlt2 : end2 < dc.end'
        · rw [if_pos hlt2]
          have hq : dc.data.drop (end2 - dc.start) =
              (dc.data.drop (end0 - dc.start)).drop (end2 - end0) := by
            rw [List.drop_drop]
            congr 1
            omega
          rw [hq]
          have hcomp := insertMerge_insertMerge st._data end0
            ((dc.data.drop (end0 - dc.start)).take (end2 - end0))
            ((dc.data.drop (end0 - dc.start)).drop (end2 - end0)) h5
          rw [List.take_append_drop] at hcomp
          have he : end0 + ((dc.data.drop (end0 - dc.start)).take (end2 - end0)).length =
              end2 := by omega
          rw [he] at hcomp
          exact hcomp
        · rw [if_neg hlt2]
          have h := hdatasuffix
          rw [if_neg hlt2] at h
          exact h
      by_cases hhigh : some (end0 / 65536) ≠ high
      · -- a type-4 record precedes the data record
        have hlines : HexOutput.hexDataLines high
            ((end0 / 65536, end0 % 65536,
              (dc.data.drop (end0 - dc.start)).take (end2 - end0)) ::
              HexOutput.chunkyLoop bpl dc fuel end2) =
            HexOutput._make_record 0 4 [end0 / 65536 / 256, end0 / 65536 % 256] ::
              HexOutput._make_record (end0 % 65536) 0
                ((dc.data.drop (end0 - dc.start)).take (end2 - end0)) ::
              HexOutput.hexDataLines (some (end0 / 65536))
                (HexOutput.chunkyLoop bpl dc fuel end2) := by
          simp only [HexOutput.hexDataLines, if_pos hhigh]
        have hstep1 : HexInput.processHexRecord HexInput.defaultHexFlags st
            (List.tail (HexOutput._make_record 0 4 [end0 / 65536 / 256, end0 / 65536 % 256])) =
            .ok ⟨st._data, end0 / 65536 * 65536, false, st.startcs, st.startpc⟩ := by
          rw [processHexRecord_type4 st h3 (end0 / 65536) hsh_lt, h3]
        have hstep2 : HexInput.processHexRecord HexInput.defaultHexFlags
            ⟨st._data, end0 / 65536 * 65536, false, st.startcs, st.startpc⟩
            (List.tail (HexOutput._make_record (end0 % 65536) 0
              ((dc.data.drop (end0 - dc.start)).take (end2 - end0)))) =
            .ok ⟨insertMerge st._data
                ⟨end0, (dc.data.drop (end0 - dc.start)).take (end2 - end0)⟩,
              end0 / 65536 * 65536, false, st.startcs, st.startpc⟩ := by
          exact processHexRecord_data
            ⟨st._data, end0 / 65536 * 65536, false, st.startcs, st.startpc⟩ rfl
            (end0 % 65536) (Nat.mod_lt _ (by norm_num)) _ hslice_255 hslice_b
            ⟨true, insertMerge st._data
              ⟨end0, (dc.data.drop (end0 - dc.start)).take (end2 - end0)⟩⟩ haddone
        obtain ⟨st', hrun, hdata, heof', hcs, hpc, hhi⟩ := ih end2 (some (end0 / 65536))
          ⟨insertMerge st._data
            ⟨end0, (dc.data.drop (end0 - dc.start)).take (end2 - end0)⟩,
            end0 / 65536 * 65536, false, st.startcs, st.startpc⟩ more
          (by omega) (by omega) rfl hsinv2 hends2
          (by
            intro h hh
            have : h = end0 / 65536 := by
              injection hh with hh2
              omega
            rw [this])
        refine ⟨st', ?_, ?_, heof', hcs, hpc, ?_⟩
        · rw [hloop, hlines]
          simp only [List.map_cons, List.cons_append, HexInput.readHexRecords,
            hstep1, hstep2]
          exact hrun
        · rw [if_pos hlt]
          rw [hdata]
          exact hcompose _ rfl
        · intro h hh
          rw [hloop, highAfter_cons] at hh
          exact hhi h hh
      · -- the upper address bits are unchanged: no type-4 record
        have hhigh2 : high = some (end0 / 65536) := by
          push_neg at hhigh
          exact hhigh.symm
        have hbase : st._baseaddr = end0 / 65536 * 65536 := h6 _ hhigh2
        have hlines : HexOutput.hexDataLines high
            ((end0 / 65536, end0 % 65536,
              (dc.data.drop (end0 - dc.start)).take (end2 - end0)) ::
              HexOutput.chunkyLoop bpl dc fuel end2) =
            HexOutput._make_record (end0 % 65536) 0
                ((dc.data.drop (end0 - dc.start)).take (end2 - end0)) ::
              HexOutput.hexDataLines (some (end0 / 65536))
                (HexOutput.chunkyLoop bpl dc fuel end2) := by
          simp only [HexOutput.hexDataLines, if_neg hhigh]
        have hstep2 : HexInput.processHexRecord HexInput.defaultHexFlags st
            (List.tail (HexOutput._make_record (end0 % 65536) 0
              ((dc.data.drop (end0 - dc.start)).take (end2 - end0)))) =
            .ok ⟨insertMerge st._data
                ⟨end0, (dc.data.drop (end0 - dc.start)).take (end2 - end0)⟩,
              st._baseaddr, false, st.startcs, st.startpc⟩ := by
          have h := processHexRecord_data st h3
            (end0 % 65536) (Nat.mod_lt _ (by norm_num)) _ hslice_255 hslice_b
            ⟨true, insertMerge st._data
              ⟨end0, (dc.data.drop (end0 - dc.start)).take (end2 - end0)⟩⟩
            (by rw [hbase]; exact haddone)
          rw [h, h3]
        obtain ⟨st', hrun, hdata, heof', hcs, hpc, hhi⟩ := ih end2 (some (end0 / 65536))
          ⟨insertMerge st._data
            ⟨end0, (dc.data.drop (end0 - dc.start)).take (end2 - end0)⟩,
            st._baseaddr, false, st.startcs, st.startpc⟩ more
          (by omega) (by omega) rfl hsinv2 hends2
          (by
            intro h hh
            have hh3 : h = end0 / 65536 := by
              injection hh with hh2
              omega
            rw [hh3]
            exact hbase)
        refine ⟨st', ?_, ?_, heof', hcs, hpc, ?_⟩
        · rw [hloop, hlines]
          simp only [List.map_cons, List.cons_append, HexInput.readHexRecords, hstep2]
          exact hrun
        · rw [if_pos hlt]
          rw [hdata]
          exact hcompose _ rfl
        · intro h hh
          rw [hloop, highAfter_cons] at hh
          exact hhi h hh

/-! ### Reading back an entire Intel HEX file -/

theorem mem_hexDigitsAux :
    ∀ (fuel n : Nat) (c : Char), c ∈ hexDigitsAux fuel n →
    ∃ v, v < 16 ∧ c = hexDigit v := by
  intro fuel
  induction fuel with
  | zero => intro n c hc; cases hc
  | succ fuel ih =>
    intro n c hc
    by_cases hn : n < 16
    · simp only [hexDigitsAux, if_pos hn] at hc
      rcases List.mem_singleton.mp hc with rfl
      exact ⟨n, hn, rfl⟩
    · simp only [hexDigitsAux, if_neg hn] at hc
      rcases List.mem_append.mp hc with hc' | hc'
      · exact ih (n / 16) c hc'
      · rcases List.mem_singleton.mp hc' with rfl
        exact ⟨n % 16, Nat.mod_lt _ (by norm_num), rfl⟩

theorem mem_fmt02X_gen (n : Nat) (c : Char) (hc : c ∈ fmt02X n) :
    ∃ v, v < 16 ∧ c = hexDigit v := by
  unfold fmt02X at hc
  by_cases hl : (hexDigits n).length < 2
  · rw [if_pos hl] at hc
    rcases List.mem_append.mp hc with hc' | hc'
    · have := List.eq_of_mem_replicate hc'
      exact ⟨0, by norm_num, this⟩
    · exact mem_hexDigitsAux _ _ c hc'
  · rw [if_neg hl] at hc
    exact mem_hexDigitsAux _ _ c hc

theorem make_record_shape (address type_ : Nat) (data : List Nat) :
    ∃ b, HexOutput._make_record address type_ data = ':' :: b ∧ ':' ∉ b ∧
      (∀ ch ∈ b, ∃ v, v < 16 ∧ ch = hexDigit v) := by
  refine ⟨(([data.length, address / 256, address % 256, type_] ++ data).map
    fmt02X).flatten ++ fmt02X (HexOutput.negsum8
      ([data.length, address / 256, address % 256, type_] ++ data).sum), rfl, ?_, ?_⟩
  · intro hmem
    have hdig : ∃ v, v < 16 ∧ ':' = hexDigit v := by
      rcases List.mem_append.mp hmem with hc' | hc'
      · obtain ⟨l, hl, hcl⟩ := List.mem_flatten.mp hc'
        obtain ⟨b, _, rfl⟩ := List.mem_map.mp hl
        exact mem_fmt02X_gen b ':' hcl
      · exact mem_fmt02X_gen _ ':' hc'
    obtain ⟨v, hv, hcv⟩ := hdig
    exact ne_colon_hexDigit v hv hcv.symm
  · intro ch hmem
    rcases List.mem_append.mp hmem with hc' | hc'
    · obtain ⟨l, hl, hcl⟩ := List.mem_flatten.mp hc'
      obtain ⟨b, _, rfl⟩ := List.mem_map.mp hl
      exact mem_fmt02X_gen b ch hcl
    · exact mem_fmt02X_gen _ ch hc'

theorem hexDataLines_mem :
    ∀ (pieces : List (Nat × Nat × List Nat)) (high : Option Nat)
      (line : List Char), line ∈ HexOutput.hexDataLines high pieces →
    ∃ a t d, line = HexOutput._make_record a t d := by
  intro pieces
  induction pieces with
  | nil => intro high line hl; cases hl
  | cons p ps ih =>
    intro high line hl
    obtain ⟨h, addr, data⟩ := p
    by_cases hc : some h ≠ high
    · simp only [HexOutput.hexDataLines, if_pos hc] at hl
      rcases List.mem_cons.mp hl with rfl | hl'
      · exact ⟨0, 4, [h / 256, h % 256], rfl⟩
      · rcases List.mem_cons.mp hl' with rfl | hl''
        · exact ⟨addr, 0, data, rfl⟩
        · exact ih (some h) line hl''
    · simp only [HexOutput.hexDataLines, if_neg hc] at hl
      rcases List.mem_cons.mp hl with rfl | hl'
      · exact ⟨addr, 0, data, rfl⟩
      · exact ih (some h) line hl'

theorem readHex_chunks (bpl : Nat) (hbpl : 0 < bpl) (hbpl255 : bpl ≤ 255) :
    ∀ (chunks l : List DataChunk) (high : Option Nat) (st : HexInput.HexState)
      (more : List (List Char)),
    st._data = l →
    st._eof = false →
    SInv (l ++ chunks) →
    (∀ c ∈ chunks, ∀ b ∈ c.data, b < 256) →
    (∀ c ∈ chunks, c.end' ≤ 2 ^ 32) →
    (∀ h, high = some h → st._baseaddr = h * 65536) →
    ∃ st' : HexInput.HexState,
      HexInput.readHexRecords HexInput.defaultHexFlags st
          ((HexOutput.hexDataLines high
            ((chunks.map (HexOutput._chunky bpl)).flatten)).map List.tail ++ more) =
        HexInput.readHexRecords HexInput.defaultHexFlags st' more ∧
      st'._data = l ++ chunks ∧ st'._eof = false ∧
      st'.startcs = st.startcs ∧ st'.startpc = st.startpc := by
  intro chunks
  induction chunks with
  | nil =>
    intro l high st more hst heof hinv _ _ _
    refine ⟨st, rfl, ?_, heof, rfl, rfl⟩
    rw [List.append_nil, hst]
  | cons c rest ih =>
    intro l high st more hst heof hinv hbytes hfit h6
    have hinvr : SInv (c :: rest) := @SInv_append_right l _ hinv
    have hcpos : 0 < c.data.length := hinvr.1
    have hbelow : ∀ d ∈ l, d.end' < c.start :=
      fun d hd => SInv_rel hinv d hd c (List.mem_cons_self c rest)
    have hcend : c.end' = c.start + c.data.length := by
      simp only [DataChunk.end', DataChunk.start]
    obtain ⟨st1, hrun1, hdata1, heof1, hcs1, hpc1, hhi1⟩ :=
      readHex_chunkyLoop bpl hbpl hbpl255 c
        (hbytes c (List.mem_cons_self c rest))
        (hfit c (List.mem_cons_self c rest))
        c.data.length c.start high st
        ((HexOutput.hexDataLines (highAfter high (HexOutput._chunky bpl c))
          ((rest.map (HexOutput._chunky bpl)).flatten)).map List.tail ++ more)
        (le_refl _) (by omega) heof
        (by rw [hst]; exact SInv_append_left hinv)
        (by rw [hst]; intro d hd; exact le_of_lt (hbelow d hd)) h6
    have hdata1' : st1._data = l ++ [c] := by
      rw [hdata1, if_pos (by omega), Nat.sub_self, List.drop_zero, hst]
      exact insertMerge_strictBelow l c hbelow
    obtain ⟨st', hrun2, hdata2, heof2, hcs2, hpc2⟩ := ih (l ++ [c])
      (highAfter high (HexOutput._chunky bpl c)) st1 more hdata1' heof1
      (by
        have hassoc : (l ++ [c]) ++ rest = l ++ c :: rest := by simp
        rw [hassoc]
        exact hinv)
      (fun c' hc' => hbytes c' (List.mem_cons_of_mem c hc'))
      (fun c' hc' => hfit c' (List.mem_cons_of_mem c hc'))
      hhi1
    refine ⟨st', ?_, ?_, heof2, hcs2.trans hcs1, hpc2.trans hpc1⟩
    · simp only [List.map_cons, List.flatten_cons, hexDataLines_append,
        List.map_append, List.append_assoc]
      rw [show HexOutput._chunky bpl c =
        HexOutput.chunkyLoop bpl c c.data.length c.start from rfl] at hrun1 hrun2 ⊢
      rw [hrun1, hrun2]
    · rw [hdata2]
      simp

theorem hex_write_read (bpl : Nat) (hbpl : 0 < bpl) (hbpl255 : bpl ≤ 255)
    (sd : SparseData) (hne : sd._data ≠ []) (hinv : SInv sd._data)
    (hbytes : ∀ c ∈ sd._data, ∀ b ∈ c.data, b < 256)
    (hfit : ∀ c ∈ sd._data, c.end' < 2 ^ 32) :
    ∃ lines st', HexOutput.write bpl none sd = .ok lines ∧
      HexInput.read HexInput.defaultHexFlags (joinLinesNl lines) = .ok st' ∧
      st'._data = sd._data := by
  obtain ⟨l₀, dl, hl2⟩ : ∃ l₀ dl, sd._data = l₀ ++ [dl] := by
    rcases List.eq_nil_or_concat sd._data with h0 | ⟨l₀, dl, hl2⟩
    · exact absurd h0 hne
    · exact ⟨l₀, dl, by rw [hl2, List.concat_eq_append]⟩
  have hend : sd.end? = some dl.end' := by
    unfold SparseData.end?
    rw [hl2, List.getLast?_concat]
  have hgate : ¬(2 ^ 32 ≤ dl.end') := by
    push_neg
    exact hfit dl (by rw [hl2]; exact List.mem_append_right _ (List.mem_singleton_self dl))
  have hw : HexOutput.write bpl none sd =
      .ok (HexOutput.hexDataLines none ((sd._data.map (HexOutput._chunky bpl)).flatten) ++
        [HexOutput._make_record 0 1 []]) := by
    simp only [HexOutput.write, hend, if_neg hgate]
    simp only [List.append_nil]
  have hshapes : ∀ line ∈ HexOutput.hexDataLines none
      ((sd._data.map (HexOutput._chunky bpl)).flatten) ++
        [HexOutput._make_record 0 1 []],
      ∃ b, line = ':' :: b ∧ ':' ∉ b ∧ (∀ ch ∈ b, ∃ v, v < 16 ∧ ch = hexDigit v) := by
    intro line hl
    rcases List.mem_append.mp hl with hl' | hl'
    · obtain ⟨a, t, d, rfl⟩ := hexDataLines_mem _ none line hl'
      exact make_record_shape a t d
    · rcases List.mem_singleton.mp hl' with rfl
      exact make_record_shape 0 1 []
  have hnospace : ∀ l ∈ HexOutput.hexDataLines none
      ((sd._data.map (HexOutput._chunky bpl)).flatten) ++
        [HexOutput._make_record 0 1 []],
      ∀ c ∈ l, isPySpace c = false := by
    intro l hl c hc
    obtain ⟨b, rfl, _, hchars⟩ := hshapes l hl
    rcases List.mem_cons.mp hc with rfl | hc'
    · decide
    · obtain ⟨v, hv, rfl⟩ := hchars c hc'
      exact isPySpace_hexDigit v hv
  have hsplitshape : ∀ l ∈ HexOutput.hexDataLines none
      ((sd._data.map (HexOutput._chunky bpl)).flatten) ++
        [HexOutput._make_record 0 1 []],
      ∃ b, l = ':' :: b ∧ ':' ∉ b := by
    intro l hl
    obtain ⟨b, hb1, hb2, _⟩ := hshapes l hl
    exact ⟨b, hb1, hb2⟩
  obtain ⟨st', hrun, hdata, heof', hcs, hpc⟩ := readHex_chunks bpl hbpl hbpl255
    sd._data [] none ⟨[], 0, false, none, none⟩
    [List.tail (HexOutput._make_record 0 1 [])] rfl rfl
    (by rw [List.nil_append]; exact hinv) hbytes
    (fun c hc => le_of_lt (hfit c hc))
    (by intro h hh; cases hh)
  refine ⟨_, ⟨st'._data, st'._baseaddr, true, st'.startcs, st'.startpc⟩, hw, ?_, ?_⟩
  · unfold HexInput.read
    rw [filter_joinLinesNl _ hnospace, splitOnChar_flatten ':' _ hsplitshape]
    have hskip : HexInput.processHexRecord HexInput.defaultHexFlags
        ⟨[], 0, false, none, none⟩ [] = .ok ⟨[], 0, false, none, none⟩ := rfl
    simp only [HexInput.readHexRecords, hskip, List.map_append, List.map_cons,
      List.map_nil]
    rw [hrun]
    simp only [HexInput.readHexRecords, processHexRecord_eof st' heof']
  · rw [hdata, List.nil_append]

theorem binary_read_single (data : List Nat) (hne : data ≠ []) :
    BinaryInput.read data = ⟨true, [⟨0, data⟩]⟩ := by
  have hl : ¬((⟨0, data⟩ : DataChunk).data.length = 0) :=
    fun h => hne (List.length_eq_zero.mp h)
  simp [BinaryInput.read, SparseData.addone, addoneLoop, spliceReplace, hl]

/-- C4 counterexample: the claimed write/read round-trips do not hold for
every address space within the chosen width.  The raw binary writer records
no addresses, so a single region based at 5 reads back re-based at 0 — a
different region boundary; the Intel HEX writer refuses a space whose last
region ends at `2^32` (highest address `0xFFFFFFFF`, within the 32-bit
linear width) with `ValueError`; and both the S-record and HEX writers
raise `TypeError` on an empty space (its `end()` is `None`). -/
theorem codec_round_trip_failures :
    BinaryOutput.write ⟨true, [⟨5, [1, 2]⟩]⟩ = .ok [1, 2] ∧
    BinaryInput.read [1, 2] = ⟨true, [⟨0, [1, 2]⟩]⟩ ∧
    (⟨true, [⟨0, [1, 2]⟩]⟩ : SparseData) ≠ ⟨true, [⟨5, [1, 2]⟩]⟩ ∧
    HexOutput.write 32 none ⟨true, [⟨4294967295, [7]⟩]⟩ = .error .valueError ∧
    SrecOutput.write 2 none none 32 ⟨true, []⟩ = .error .typeError ∧
    HexOutput.write 32 none ⟨true, []⟩ = .error .typeError := by
  refine ⟨by decide, by decide, by decide, by decide, by decide, by decide⟩

/-- C4 (corrected): the round-trips hold in this form — (1) S-records: for
every non-empty `SparseData` satisfying the region invariant, with byte
values below 256, every region end within the chosen `address_bytes` width,
and a `bytes_per_line` that keeps each record's byte-count field a single
byte, writing and reading back reproduces exactly the region list; (2)
Intel HEX: likewise, for every region end strictly below `2^32` and
`bytes_per_line` at most 255; (3) raw binary: a single-region space writes
its bytes, and reading them back yields the same bytes re-based at
address 0 — the original base address is lost, so the claimed binary
boundary round-trip fails whenever the base is non-zero, and empty spaces
make the S-record and HEX writers raise `TypeError`. -/
theorem codec_round_trips :
    (∀ ab bpl (sd : SparseData), (ab = 2 ∨ ab = 3 ∨ ab = 4) → 0 < bpl →
      ab + bpl + 1 < 256 → sd._data ≠ [] → SInv sd._data →
      (∀ c ∈ sd._data, ∀ b ∈ c.data, b < 256) →
      (∀ c ∈ sd._data, c.end' ≤ 256 ^ ab) →
      ∃ lines n, SrecOutput.write ab none none bpl sd = .ok lines ∧
        readLines defaultSrecFlags ⟨[], [], none, 0⟩ 0 lines =
          .ok ⟨sd._data, [], none, n⟩) ∧
    (∀ bpl (sd : SparseData), 0 < bpl → bpl ≤ 255 → sd._data ≠ [] → SInv sd._data →
      (∀ c ∈ sd._data, ∀ b ∈ c.data, b < 256) →
      (∀ c ∈ sd._data, c.end' < 2 ^ 32) →
      ∃ lines st', HexOutput.write bpl none sd = .ok lines ∧
        HexInput.read HexInput.defaultHexFlags (joinLinesNl lines) = .ok st' ∧
        st'._data = sd._data) ∧
    (∀ (ce : Bool) (base : Nat) (data : List Nat), data ≠ [] →
      BinaryOutput.write ⟨ce, [⟨base, data⟩]⟩ = .ok data ∧
      BinaryInput.read data = ⟨true, [⟨0, data⟩]⟩) := by
  refine ⟨?_, ?_, ?_⟩
  · intro ab bpl sd hab hbpl hsize hne hinv hbytes hfit
    obtain ⟨n, hn⟩ := readLines_srec_chunks ab bpl hab hbpl hsize sd._data []
      ⟨[], [], none, 0⟩ 0 rfl (by rw [List.nil_append]; exact hinv) hbytes hfit
    rw [List.nil_append] at hn
    exact ⟨_, 0 + n, srec_write_lines ab bpl hab sd hne hfit, hn⟩
  · intro bpl sd hbpl hbpl255 hne hinv hbytes hfit
    exact hex_write_read bpl hbpl hbpl255 sd hne hinv hbytes hfit
  · intro ce base data hne
    constructor
    · simp [BinaryOutput.write]
    · exact binary_read_single data hne

theorem codec_round_trips_witness :
    (∃ lines n, SrecOutput.write 2 none none 32 ⟨true, [⟨5, [1, 2, 3]⟩]⟩ = .ok lines ∧
      readLines defaultSrecFlags ⟨[], [], none, 0⟩ 0 lines =
        .ok ⟨[⟨5, [1, 2, 3]⟩], [], none, n⟩) ∧
    (∃ lines st', HexOutput.write 32 none ⟨true, [⟨5, [1, 2, 3]⟩]⟩ = .ok lines ∧
      HexInput.read HexInput.defaultHexFlags (joinLinesNl lines) = .ok st' ∧
      st'._data = [⟨5, [1, 2, 3]⟩]) ∧
    (BinaryOutput.write ⟨false, [⟨5, [1, 2, 3]⟩]⟩ = .ok [1, 2, 3] ∧
      BinaryInput.read [1, 2, 3] = ⟨true, [⟨0, [1, 2, 3]⟩]⟩) :=
  ⟨codec_round_trips.1 2 32 ⟨true, [⟨5, [1, 2, 3]⟩]⟩ (by decide) (by decide)
      (by decide) (by decide) (by decide) (by decide) (by decide),
    codec_round_trips.2.1 32 ⟨true, [⟨5, [1, 2, 3]⟩]⟩ (by decide) (by decide)
      (by decide) (by decide) (by decide) (by decide),
    codec_round_trips.2.2 false 5 [1, 2, 3] (by decide)⟩

theorem fill_gap_coverage_witness :
    ((∃ l', fill .LE (.bytesPat [171]) ⟨false, [⟨10, [1, 2]⟩]⟩ 0 5 =
        .ok ⟨false, l'⟩ ∧ SInv l' ∧
      (∀ a, coveredBy l' a ↔
        (coveredBy [(⟨10, [1, 2]⟩ : DataChunk)] a ∨ (0 ≤ a ∧ a < 5)))) ∧
    fill .LE (.intConst 255) ⟨true, []⟩ 0 5 =
      .ok ⟨true, [⟨0, List.replicate 5 255⟩]⟩) :=
  fill_gap_coverage .LE (.bytesPat [171]) (List.cons_ne_nil 171 [])
    false [⟨10, [1, 2]⟩] 0 5 (by decide) (by decide)

end Srecord
